import Mathlib

set_option autoImplicit false
set_option maxRecDepth 100000

/-!
Shallow embedding of the goruby-lsp indexing core.

The embedding covers, translated from the Go sources:
  * the symbol model (internal/types/symbol.go),
  * the seven matchers registered by `RegisterDefaults`
    (internal/parser/ruby.go, method.go, localvar.go, the relation matcher,
    and the registry in the parser package),
  * the line scanner with its multi-line accumulator (internal/parser/scanner.go),
  * the symbol index with its targeting redirect and the trigram text index
    (package index).

Go strings are modelled as `List Char` (the inputs of interest are ASCII, so
byte indexing and rune indexing agree), Go maps as association lists whose
iteration order is the insertion order (Go's map iteration order is
unspecified; every concrete state used below has at most one entry relevant
to the property at hand, so the modelled order is immaterial), and the
recursive `findDefinitionsLocked` as a fuel-indexed function where `none`
means the recursion did not complete within the given fuel.
-/

namespace GoRuby

/-! ### Character classes and Go string helpers -/

/-- ASCII word character, the `\w` / `[a-zA-Z0-9_]` class of Go's regexp. -/
def isWordChar (c : Char) : Bool := c.isAlphanum || c = '_'

/-- The `\s` class of Go's regexp (RE2): `[\t\n\f\r ]`. -/
def isRegexSpace (c : Char) : Bool :=
  c = ' ' || c = '\t' || c = '\n' || c = Char.ofNat 12 || c = '\r'

/-- `unicode.IsSpace` restricted to ASCII, as used by `strings.TrimSpace`. -/
def isGoSpace (c : Char) : Bool :=
  c = ' ' || c = '\t' || c = '\n' || c = Char.ofNat 11 || c = Char.ofNat 12 || c = '\r'

/-- `strings.TrimSpace` on a character list. -/
def trimSpace (s : List Char) : List Char :=
  ((s.dropWhile isGoSpace).reverse.dropWhile isGoSpace).reverse

/-- `strings.Split` with a single-character separator. -/
def splitOnChar (sep : Char) : List Char → List (List Char)
  | [] => [[]]
  | c :: rest =>
    let r := splitOnChar sep rest
    if c = sep then [] :: r
    else
      match r with
      | [] => [[c]]
      | h :: t => (c :: h) :: t

/-- `strings.Index`: byte index of the first occurrence of `sub` in `s`, or -1. -/
def strIndex (s sub : List Char) : Int :=
  match s with
  | [] => if sub.isEmpty then 0 else -1
  | _ :: rest =>
    if sub.isPrefixOf s then 0
    else
      match strIndex rest sub with
      | -1 => -1
      | i => i + 1

/-- If `lit` is a prefix of `s`, the remainder after it. -/
def dropLit (lit s : List Char) : Option (List Char) :=
  if lit.isPrefixOf s then some (s.drop lit.length) else none

/-- `strings.Split` with a (nonempty) multi-character separator: split on
non-overlapping occurrences, left to right.  Fuel is the input length. -/
def splitOnSeq (sep : List Char) (fuel : Nat) (s : List Char) : List (List Char) :=
  match fuel with
  | 0 => [s]
  | fuel + 1 =>
    match s with
    | [] => [[]]
    | c :: rest =>
      if sep ≠ [] ∧ sep.isPrefixOf s then
        [] :: splitOnSeq sep fuel (s.drop sep.length)
      else
        match splitOnSeq sep fuel rest with
        | [] => [[c]]
        | h :: t => (c :: h) :: t

/-- `strings.Split` on strings. -/
def goSplit (s sep : String) : List String :=
  (splitOnSeq sep.toList s.toList.length s.toList).map String.mk

/-- `strings.HasPrefix` on strings. -/
def goStartsWith (s pre : String) : Bool := pre.toList.isPrefixOf s.toList

/-! ### Symbol model (internal/types/symbol.go) -/

inductive SymbolKind where
  | KindClass
  | KindModule
  | KindMethod
  | KindSingletonMethod
  | KindConstant
  | KindAttrReader
  | KindAttrWriter
  | KindAttrAccessor
  | KindLocalVariable
  | KindCustom
  | KindRelation
deriving DecidableEq, Repr

structure Symbol where
  name : String := ""
  kind : SymbolKind := SymbolKind.KindClass
  filePath : String := ""
  line : Nat := 0
  column : Int := 0
  endLine : Nat := 0
  endColumn : Nat := 0
  scope : List String := []
  fullName : String := ""
  methodFullName : String := ""
  targetName : String := ""
deriving DecidableEq, Repr

/-- `Symbol.ComputeFullName` from internal/types/symbol.go. -/
def computeFullName (s : Symbol) : String :=
  let parts := s.scope
  match s.kind with
  | SymbolKind.KindMethod | SymbolKind.KindAttrReader
  | SymbolKind.KindAttrWriter | SymbolKind.KindAttrAccessor =>
    if parts.length > 0 then String.intercalate "::" parts ++ "#" ++ s.name
    else "#" ++ s.name
  | SymbolKind.KindSingletonMethod =>
    if parts.length > 0 then String.intercalate "::" parts ++ "." ++ s.name
    else "." ++ s.name
  | SymbolKind.KindLocalVariable =>
    if s.methodFullName ≠ "" then s.methodFullName ++ "@" ++ s.name
    else "@" ++ s.name
  | _ => String.intercalate "::" (parts ++ [s.name])

/-- `types.Reference`. -/
structure Reference where
  filePath : String
  line : Nat
  column : Nat
  length : Nat
  lineText : String
deriving DecidableEq, Repr

/-! ### Matcher interface (parser package: MethodContext, ParseContext, MatchResult) -/

structure MethodContext where
  fullName : String
  startLine : Nat
  nestingDepth : Nat := 0
deriving DecidableEq, Repr

structure ParseContext where
  filePath : String
  currentScope : List String
  lineNum : Nat
  currentMethod : Option MethodContext := none
deriving DecidableEq, Repr

structure MatchResult where
  symbols : List Symbol := []
  pushScope : String := ""
  popScope : Bool := false
  enterMethod : Option MethodContext := none
deriving DecidableEq, Repr

/-! ### Class / Module matchers (ruby.go)

`classPattern = ^\s*class\s+([A-Z]\w*(?:::[A-Z]\w*)*)(?:\s*<\s*\S+)?`
`modulePattern = ^\s*module\s+([A-Z]\w*(?:::[A-Z]\w*)*)`
-/

/-- The `(?:::[A-Z]\w*)*` tail of a qualified constant name; returns the matched
characters and the rest.  Fuel is the length of the input, which bounds the
recursion (each step consumes at least three characters). -/
def qualTail (fuel : Nat) (s : List Char) : List Char × List Char :=
  match fuel with
  | 0 => ([], s)
  | fuel + 1 =>
    match s with
    | ':' :: ':' :: c :: rest =>
      if c.isUpper then
        let (w, r) := rest.span isWordChar
        let (more, r2) := qualTail fuel r
        (':' :: ':' :: c :: (w ++ more), r2)
      else ([], s)
    | _ => ([], s)

/-- `[A-Z]\w*(?:::[A-Z]\w*)*`; the matched name and the rest.  Greediness is
deterministic because `:` is not a `\w` character. -/
def qualConst (s : List Char) : Option (List Char × List Char) :=
  match s with
  | [] => none
  | c :: rest =>
    if c.isUpper then
      let (w, r) := rest.span isWordChar
      let (more, r2) := qualTail r.length r
      some (c :: (w ++ more), r2)
    else none

/-- Capture group 1 of `classPattern`.  The trailing optional
`(?:\s*<\s*\S+)?` group can neither fail nor contribute a capture, so it is
not represented. -/
def classPatternMatch (line : List Char) : Option (List Char) :=
  let r0 := line.dropWhile isRegexSpace
  match dropLit "class".toList r0 with
  | none => none
  | some r1 =>
    match r1 with
    | [] => none
    | c :: r2 =>
      if isRegexSpace c then
        match qualConst (r2.dropWhile isRegexSpace) with
        | some (name, _) => some name
        | none => none
      else none

/-- Capture group 1 of `modulePattern`. -/
def modulePatternMatch (line : List Char) : Option (List Char) :=
  let r0 := line.dropWhile isRegexSpace
  match dropLit "module".toList r0 with
  | none => none
  | some r1 =>
    match r1 with
    | [] => none
    | c :: r2 =>
      if isRegexSpace c then
        match qualConst (r2.dropWhile isRegexSpace) with
        | some (name, _) => some name
        | none => none
      else none

/-- `ClassMatcher.Match` (priority 100). -/
def classMatch (line : List Char) (ctx : ParseContext) : Option MatchResult :=
  match classPatternMatch line with
  | none => none
  | some nameChars =>
    let className := String.mk nameChars
    let col := strIndex line nameChars
    let parts := goSplit className "::"
    let shortName := parts.getLastD ""
    let scope := ctx.currentScope ++ parts.dropLast
    let sym : Symbol :=
      { name := shortName, kind := SymbolKind.KindClass, filePath := ctx.filePath,
        line := ctx.lineNum, column := col, scope := scope }
    let sym := { sym with fullName := computeFullName sym }
    some { symbols := [sym], pushScope := shortName }

/-- `ModuleMatcher.Match` (priority 100). -/
def moduleMatch (line : List Char) (ctx : ParseContext) : Option MatchResult :=
  match modulePatternMatch line with
  | none => none
  | some nameChars =>
    let moduleName := String.mk nameChars
    let col := strIndex line nameChars
    let parts := goSplit moduleName "::"
    let shortName := parts.getLastD ""
    let scope := ctx.currentScope ++ parts.dropLast
    let sym : Symbol :=
      { name := shortName, kind := SymbolKind.KindModule, filePath := ctx.filePath,
        line := ctx.lineNum, column := col, scope := scope }
    let sym := { sym with fullName := computeFullName sym }
    some { symbols := [sym], pushScope := shortName }

/-! ### Method matcher (method.go)

`methodPattern = ^\s*def\s+(self\.)?(\w+[?!=]?)`
-/

/-- Capture groups of `methodPattern`: whether group 1 (`self.`) matched, and
group 2 (the method name).  The optional `(self\.)?` group backtracks to the
empty alternative when no `\w` character follows it. -/
def methodPatternMatch (line : List Char) : Option (Bool × List Char) :=
  let r0 := line.dropWhile isRegexSpace
  match dropLit "def".toList r0 with
  | none => none
  | some r1 =>
    match r1 with
    | [] => none
    | c :: r2 =>
      if isRegexSpace c then
        let r3 := r2.dropWhile isRegexSpace
        let p : Bool × List Char :=
          match dropLit "self.".toList r3 with
          | some r =>
            match r.head? with
            | some d => if isWordChar d then (true, r) else (false, r3)
            | none => (false, r3)
          | none => (false, r3)
        match p.2 with
        | [] => none
        | d :: r5 =>
          if isWordChar d then
            let (w, r6) := r5.span isWordChar
            let name :=
              match r6.head? with
              | some e => if e = '?' || e = '!' || e = '=' then d :: (w ++ [e]) else d :: w
              | none => d :: w
            some (p.1, name)
          else none
      else none

/-- `MethodMatcher.Match` (priority 90). -/
def methodMatch (line : List Char) (ctx : ParseContext) : Option MatchResult :=
  match methodPatternMatch line with
  | none => none
  | some (isSingleton, nameChars) =>
    let methodName := String.mk nameChars
    let col := strIndex line nameChars
    let kind := if isSingleton then SymbolKind.KindSingletonMethod else SymbolKind.KindMethod
    let sym : Symbol :=
      { name := methodName, kind := kind, filePath := ctx.filePath,
        line := ctx.lineNum, column := col, scope := ctx.currentScope }
    let sym := { sym with fullName := computeFullName sym }
    some { symbols := [sym],
           enterMethod := some { fullName := sym.fullName, startLine := ctx.lineNum } }

/-! ### Constant matcher (ruby.go)

`constantPattern = ^\s*([A-Z][A-Z0-9_]*)\s*=`

Note: `ConstantMatcher.Match` in the source applies only this regex; it has
no code rejecting `==` / `===` / `=~`, so a line such as `MY_CONSTANT == 42`
matches (the first `=` of `==` satisfies the pattern).
-/

def isConstChar (c : Char) : Bool := c.isUpper || c.isDigit || c = '_'

def constantPatternMatch (line : List Char) : Option (List Char) :=
  let r0 := line.dropWhile isRegexSpace
  match r0 with
  | [] => none
  | c :: r1 =>
    if c.isUpper then
      let (w, r2) := r1.span isConstChar
      match r2.dropWhile isRegexSpace with
      | '=' :: _ => some (c :: w)
      | _ => none
    else none

/-- `ConstantMatcher.Match` (priority 80). -/
def constantMatch (line : List Char) (ctx : ParseContext) : Option MatchResult :=
  match constantPatternMatch line with
  | none => none
  | some nameChars =>
    let constName := String.mk nameChars
    let col := strIndex line nameChars
    let sym : Symbol :=
      { name := constName, kind := SymbolKind.KindConstant, filePath := ctx.filePath,
        line := ctx.lineNum, column := col, scope := ctx.currentScope }
    let sym := { sym with fullName := computeFullName sym }
    some { symbols := [sym] }

/-! ### Relation matcher and singularization -/

/-- `singular` from the relation matcher source: irregular plurals, then the
suffix rules in source order. -/
def singular (word : String) : String :=
  if word = "people" then "person"
  else if word = "children" then "child"
  else if word = "men" then "man"
  else if word = "women" then "woman"
  else if word = "teeth" then "tooth"
  else if word = "feet" then "foot"
  else if word = "mice" then "mouse"
  else if word = "geese" then "goose"
  else
    let cs := word.toList
    if "ies".toList.isSuffixOf cs ∧ cs.length > 3 then
      String.mk (cs.take (cs.length - 3) ++ "y".toList)
    else if "ves".toList.isSuffixOf cs ∧ cs.length > 3 then
      String.mk (cs.take (cs.length - 3) ++ "f".toList)
    else if "ses".toList.isSuffixOf cs ∨ "xes".toList.isSuffixOf cs ∨
            "zes".toList.isSuffixOf cs ∨ "ches".toList.isSuffixOf cs ∨
            "shes".toList.isSuffixOf cs then
      String.mk (cs.take (cs.length - 2))
    else if "s".toList.isSuffixOf cs ∧ cs.length > 1 then
      String.mk (cs.take (cs.length - 1))
    else word

/-- `toClassName` from the relation matcher source: split on `_`, singularize
the last segment when requested, capitalize the first byte of each segment,
concatenate. -/
def toClassName (name : String) (singularize : Bool) : String :=
  let parts := goSplit name "_"
  let parts :=
    if singularize ∧ parts.length > 0 then
      parts.set (parts.length - 1) (singular (parts.getLastD ""))
    else parts
  let parts := parts.map fun p =>
    match p.toList with
    | [] => p
    | c :: rest => String.mk (c.toUpper :: rest)
  String.join parts

/-- The `(belongs_to|has_one|has_many)` alternation (the alternatives are not
prefixes of one another, so the first-match rule is deterministic). -/
def relKeyword (s : List Char) : Option (String × List Char) :=
  match dropLit "belongs_to".toList s with
  | some r => some ("belongs_to", r)
  | none =>
    match dropLit "has_one".toList s with
    | some r => some ("has_one", r)
    | none =>
      match dropLit "has_many".toList s with
      | some r => some ("has_many", r)
      | none => none

def isLowerWordChar (c : Char) : Bool := c.isLower || c.isDigit || c = '_'

/-- The character written `'` (kept out of character-literal syntax). -/
def squote : Char := Char.ofNat 39

/-- `class_name:\s*['"]([A-Za-z][A-Za-z0-9_:]*)['"']` anchored at `s`;
the capture when it matches here. -/
def classNameAt (s : List Char) : Option String :=
  match dropLit "class_name:".toList s with
  | none => none
  | some r1 =>
    match r1.dropWhile isRegexSpace with
    | [] => none
    | q :: r3 =>
      if q = squote || q = '"' then
        match r3 with
        | [] => none
        | c :: r4 =>
          if c.isAlpha then
            let (w, r5) := r4.span fun d => d.isAlphanum || d = '_' || d = ':'
            match r5.head? with
            | some q2 => if q2 = squote || q2 = '"' then some (String.mk (c :: w)) else none
            | none => none
          else none
      else none

/-- The optional `(?:.*class_name:\s*['"]…['"'])?` group: with a greedy `.*`,
Go's leftmost-first matching takes the last offset at which the rest of the
group matches (the scanned lines contain no newline, so `.` never blocks).
Fuel is the length of `s`. -/
def lastClassName (fuel : Nat) (s : List Char) : Option String :=
  match fuel, s with
  | _, [] => none
  | 0, _ => none
  | fuel + 1, _ :: rest =>
    match lastClassName fuel rest with
    | some r => some r
    | none => classNameAt s

/-- Captures of `relationPattern`
`^\s*(belongs_to|has_one|has_many)\s*[\(\s]+:([a-z_][a-z0-9_]*)`
`(?:.*class_name:\s*['"]([A-Za-z][A-Za-z0-9_:]*)['"'])?`:
relation type, relation name, and the (possibly empty) class_name capture.
`\s*[\(\s]+` is one maximal nonempty run over spaces and `(` (the character
`:` that must follow is in neither class, so greediness is deterministic). -/
def relationPatternMatch (line : List Char) : Option (String × String × String) :=
  let r0 := line.dropWhile isRegexSpace
  match relKeyword r0 with
  | none => none
  | some (rtype, r1) =>
    let (run, r2) := r1.span fun c => isRegexSpace c || c = '('
    if run.length = 0 then none
    else
      match r2 with
      | ':' :: c :: r4 =>
        if c.isLower || c = '_' then
          let (w, r5) := r4.span isLowerWordChar
          let name := String.mk (c :: w)
          let className := (lastClassName r5.length r5).getD ""
          some (rtype, name, className)
        else none
      | _ => none

/-- `RelationMatcher.Match` (priority 85). -/
def relationMatch (line : List Char) (ctx : ParseContext) : Option MatchResult :=
  if ctx.currentScope.isEmpty then none
  else
    match relationPatternMatch line with
    | none => none
    | some (rtype, relationName, className) =>
      let targetClass :=
        if className ≠ "" then className
        else toClassName relationName (rtype = "has_many")
      let col := strIndex line (':' :: relationName.toList) + 1
      let sym : Symbol :=
        { name := relationName, targetName := targetClass, kind := SymbolKind.KindRelation,
          filePath := ctx.filePath, line := ctx.lineNum, column := col,
          scope := ctx.currentScope }
      let sym := { sym with fullName := computeFullName sym }
      some { symbols := [sym] }

/-- `RelationMatcher.StartsMultiline`:
`multilineStartPattern = ^\s*(belongs_to|has_one|has_many)\s*\(` and an
unclosed-paren check; the delimiter pair on success. -/
def relationStartsMultiline (line : List Char) : Option (Char × Char) :=
  let r0 := line.dropWhile isRegexSpace
  match relKeyword r0 with
  | none => none
  | some (_, r1) =>
    match r1.dropWhile isRegexSpace with
    | '(' :: _ =>
      if line.count '(' > line.count ')' then some ('(', ')') else none
    | _ => none

/-! ### Local variable matcher (localvar.go) -/

/-- `comparisonPattern = ^\s*[a-z_][a-z0-9_]*\s*(?:={2,3}|=~)` as a test. -/
def comparisonPatternMatch (line : List Char) : Bool :=
  let r0 := line.dropWhile isRegexSpace
  match r0 with
  | [] => false
  | c :: r1 =>
    if c.isLower || c = '_' then
      let (_, r2) := r1.span isLowerWordChar
      match r2.dropWhile isRegexSpace with
      | '=' :: '=' :: _ => true
      | '=' :: '~' :: _ => true
      | _ => false
    else false

/-- `(?:\s*,\s*[a-z_][a-z0-9_]*)+` matched greedily; the consumed characters
and the rest (zero repetitions yield `([], s)`).  Fuel is the input length. -/
def multiAssignReps (fuel : Nat) (s : List Char) : List Char × List Char :=
  match fuel with
  | 0 => ([], s)
  | fuel + 1 =>
    let (sp1, r1) := s.span isRegexSpace
    match r1 with
    | ',' :: r2 =>
      let (sp2, r3) := r2.span isRegexSpace
      match r3 with
      | c :: r4 =>
        if c.isLower || c = '_' then
          let (w, r5) := r4.span isLowerWordChar
          let (more, rest) := multiAssignReps fuel r5
          (sp1 ++ [','] ++ sp2 ++ [c] ++ w ++ more, rest)
        else ([], s)
      | [] => ([], s)
    | _ => ([], s)

/-- Capture group 1 of
`multiAssignPattern = ^\s*([a-z_][a-z0-9_]*(?:\s*,\s*[a-z_][a-z0-9_]*)+)\s*=`. -/
def multiAssignMatch (line : List Char) : Option (List Char) :=
  let r0 := line.dropWhile isRegexSpace
  match r0 with
  | [] => none
  | c :: r1 =>
    if c.isLower || c = '_' then
      let (w, r2) := r1.span isLowerWordChar
      let (reps, r3) := multiAssignReps r2.length r2
      if reps.isEmpty then none
      else
        match r3.dropWhile isRegexSpace with
        | '=' :: _ => some ((c :: w) ++ reps)
        | _ => none
    else none

/-- Capture group 1 of `singleAssignPattern = ^\s*([a-z_][a-z0-9_]*)\s*=`. -/
def singleAssignMatch (line : List Char) : Option (List Char) :=
  let r0 := line.dropWhile isRegexSpace
  match r0 with
  | [] => none
  | c :: r1 =>
    if c.isLower || c = '_' then
      let (w, r2) := r1.span isLowerWordChar
      match r2.dropWhile isRegexSpace with
      | '=' :: _ => some (c :: w)
      | _ => none
    else none

/-- Shared constructor of a local-variable symbol
(`handleSingleAssign` / the loop body of `handleMultiAssign`). -/
def mkLocalVarSymbol (varName : String) (line : List Char) (ctx : ParseContext)
    (cm : MethodContext) : Symbol :=
  let col := strIndex line varName.toList
  let sym : Symbol :=
    { name := varName, kind := SymbolKind.KindLocalVariable, filePath := ctx.filePath,
      line := ctx.lineNum, column := col, scope := ctx.currentScope,
      methodFullName := cm.fullName }
  { sym with fullName := computeFullName sym }

/-- `LocalVariableMatcher.Match` (priority 70). -/
def localvarMatch (line : List Char) (ctx : ParseContext) : Option MatchResult :=
  match ctx.currentMethod with
  | none => none
  | some cm =>
    if comparisonPatternMatch line then none
    else
      match multiAssignMatch line with
      | some varList =>
        let vars := goSplit (String.mk varList) ","
        let symbols := vars.filterMap fun v =>
          let varName := String.mk (trimSpace v.toList)
          if varName = "" then none
          else some (mkLocalVarSymbol varName line ctx cm)
        if symbols.isEmpty then none
        else some { symbols := symbols }
      | none =>
        match singleAssignMatch line with
        | some nameChars =>
          some { symbols := [mkLocalVarSymbol (String.mk nameChars) line ctx cm] }
        | none => none

/-! ### End matcher (ruby.go): `endPattern = ^\s*end\b` -/

def endPatternMatch (line : List Char) : Bool :=
  let r0 := line.dropWhile isRegexSpace
  match dropLit "end".toList r0 with
  | none => false
  | some r1 =>
    match r1.head? with
    | none => true
    | some c => !(isWordChar c)

/-- `EndMatcher.Match` (priority 50). -/
def endMatch (line : List Char) (_ctx : ParseContext) : Option MatchResult :=
  if endPatternMatch line then some { popScope := true } else none

/-! ### Registry and scanner (scanner.go)

`RegisterDefaults` registers exactly the seven matchers Class, Module,
Method, Constant, LocalVariable, Relation, End; `Registry.Matchers` sorts
them by descending priority, giving the order 100, 100, 90, 85, 80, 70, 50.
(`sort.Slice` is unstable, but the only tie — Class/Module at 100 — is
between matchers with disjoint patterns, so the order between them is
immaterial.)  The scanner takes the first matcher that returns a result.
-/

def runMatchers (line : List Char) (ctx : ParseContext) : Option MatchResult :=
  match classMatch line ctx with
  | some r => some r
  | none =>
  match moduleMatch line ctx with
  | some r => some r
  | none =>
  match methodMatch line ctx with
  | some r => some r
  | none =>
  match relationMatch line ctx with
  | some r => some r
  | none =>
  match constantMatch line ctx with
  | some r => some r
  | none =>
  match localvarMatch line ctx with
  | some r => some r
  | none => endMatch line ctx

/-- The multi-line accumulator of `Scanner.Parse`. -/
structure Accum where
  buffer : List Char
  startLine : Nat
  opener : Char
  closer : Char
  depth : Int
deriving DecidableEq, Repr

/-- `accumulator.addLine`: append with a single-space separator and update the
running delimiter balance. -/
def accAdd (a : Accum) (line : List Char) : Accum :=
  let buffer := if a.buffer.length > 0 then a.buffer ++ [' '] ++ line else line
  { a with
    buffer := buffer,
    depth := a.depth + (line.count a.opener : Int) - (line.count a.closer : Int) }

/-- `accumulator.isComplete`. -/
def accComplete (a : Accum) : Bool := a.depth ≤ 0

/-- `Scanner.tryStartMultiline`: of the registered matchers only the relation
matcher implements `MultilineDetector`, so the priority-ordered loop reduces
to its detector. -/
def tryStartMultiline (line : List Char) (lineNum : Nat) : Option Accum :=
  match relationStartsMultiline line with
  | none => none
  | some (o, c) =>
    some (accAdd { buffer := [], startLine := lineNum, opener := o, closer := c, depth := 0 } line)

/-- The mutable per-file state of `Scanner.Parse`.  The Go `methodSymbol`
pointer into the emitted slice is modelled as an index into `symbols`. -/
structure ScanState where
  symbols : List Symbol := []
  scopeStack : List String := []
  nestingDepth : Nat := 0
  currentMethod : Option MethodContext := none
  methodSymbol : Option Nat := none
  acc : Option Accum := none
deriving DecidableEq, Repr

/-- Index of the first Method/SingletonMethod symbol of a result (the Go
loop that sets `methodSymbol`). -/
def findMethodIdx : List Symbol → Option Nat
  | [] => none
  | s :: rest =>
    if s.kind = SymbolKind.KindMethod ∨ s.kind = SymbolKind.KindSingletonMethod then some 0
    else (findMethodIdx rest).map (· + 1)

/-- The method-exit check inside the `result.PopScope` branch of
`Scanner.Parse`: when the nesting depth equals the current method's recorded
depth, set the method symbol's `EndLine` to the current line and clear the
current-method slot. -/
def applyPopExit (st : ScanState) (lineNum : Nat) : ScanState :=
  let exiting : Bool :=
    match st.currentMethod with
    | some cm => st.nestingDepth == cm.nestingDepth
    | none => false
  if exiting then
    let syms :=
      match st.methodSymbol with
      | some k =>
        match st.symbols.get? k with
        | some m => st.symbols.set k { m with endLine := lineNum }
        | none => st.symbols
      | none => st.symbols
    { st with symbols := syms, methodSymbol := none, currentMethod := none }
  else st

/-- The `result.PopScope` branch of `Scanner.Parse`: possibly close the
current method (setting its `EndLine`), decrement the nesting depth, and pop
the scope stack only when the new depth drops below its length. -/
def applyPop (st : ScanState) (lineNum : Nat) : ScanState :=
  if st.nestingDepth > 0 then
    let st1 := applyPopExit st lineNum
    let nd := st1.nestingDepth - 1
    let scopeStack :=
      if nd < st1.scopeStack.length then st1.scopeStack.dropLast else st1.scopeStack
    { st1 with nestingDepth := nd, scopeStack := scopeStack }
  else st

/-- The `result.EnterMethod` branch of `Scanner.Parse`. -/
def applyEnterMethod (st : ScanState) (r : MatchResult) : ScanState :=
  match r.enterMethod with
  | none => st
  | some em =>
    let nd := st.nestingDepth + 1
    let base := st.symbols.length - r.symbols.length
    let mIdx :=
      match findMethodIdx r.symbols with
      | some j => some (base + j)
      | none => st.methodSymbol
    { st with nestingDepth := nd,
              currentMethod := some { em with nestingDepth := nd },
              methodSymbol := mIdx }

/-- The effect application of one `MatchResult` in `Scanner.Parse`: append
symbols, push scope, enter method, and handle `end`. -/
def applyResult (st : ScanState) (r : MatchResult) (lineNum : Nat) : ScanState :=
  let st1 : ScanState := { st with symbols := st.symbols ++ r.symbols }
  let st2 : ScanState :=
    if r.pushScope ≠ "" then
      { st1 with scopeStack := st1.scopeStack ++ [r.pushScope],
                 nestingDepth := st1.nestingDepth + 1 }
    else st1
  let st3 : ScanState := applyEnterMethod st2 r
  if r.popScope then applyPop st3 lineNum else st3

/-- Run the matcher loop of `Scanner.Parse` on one (possibly folded) line. -/
def processLine (filePath : String) (st : ScanState) (lineNum : Nat)
    (line : List Char) : ScanState :=
  let ctx : ParseContext :=
    { filePath := filePath, currentScope := st.scopeStack, lineNum := lineNum,
      currentMethod := st.currentMethod }
  match runMatchers line ctx with
  | none => st
  | some r => applyResult st r lineNum

/-- One iteration of the line loop of `Scanner.Parse`; `idx0` is the 0-based
line index (`ctx.LineNum = idx0 + 1`). -/
def scanStep (filePath : String) (st : ScanState) (idx0 : Nat)
    (rawLine : List Char) : ScanState :=
  let lineNum := idx0 + 1
  let trimmed := trimSpace rawLine
  if trimmed.isEmpty || trimmed.head? = some '#' then st
  else
    match st.acc with
    | some a =>
      let a2 := accAdd a trimmed
      if ¬ accComplete a2 then { st with acc := some a2 }
      else processLine filePath { st with acc := none } a2.startLine a2.buffer
    | none =>
      match tryStartMultiline trimmed lineNum with
      | some a =>
        if ¬ accComplete a then { st with acc := some a }
        else processLine filePath { st with acc := none } lineNum a.buffer
      | none => processLine filePath st lineNum rawLine

/-- `Scanner.Parse`: split on newlines, fold the per-line step, and return the
emitted symbols. -/
def parseScan (filePath : String) (lines : List (List Char)) : ScanState :=
  lines.enum.foldl (fun st p => scanStep filePath st p.1 p.2) {}

def parse (filePath : String) (content : String) : List Symbol :=
  (parseScan filePath (splitOnChar '\n' content.toList)).symbols

/-! ### Association-list maps

Go's `map[string]V` is modelled as an association list with unique keys;
lookup finds the first matching key, assignment replaces in place, delete
removes the entry.  Iteration (`for … := range m`) is modelled as traversal
in list order; Go leaves the order unspecified, and no property proved below
depends on it (see the comments at the relevant definitions).
-/

def lookupA {α : Type} (m : List (String × α)) (k : String) : Option α :=
  match m with
  | [] => none
  | (k2, v) :: rest => if k2 = k then some v else lookupA rest k

def insertA {α : Type} (m : List (String × α)) (k : String) (v : α) : List (String × α) :=
  match m with
  | [] => [(k, v)]
  | (k2, v2) :: rest => if k2 = k then (k2, v) :: rest else (k2, v2) :: insertA rest k v

def eraseA {α : Type} (m : List (String × α)) (k : String) : List (String × α) :=
  m.filter fun pr => pr.1 ≠ k

/-! ### Trigram index (package index, trigram part) -/

structure TrigramIndex where
  trigrams : List (String × List String) := []
  files : List (String × String) := []
deriving DecidableEq, Repr

/-- The overlapping 3-byte substrings `content[i:i+3]` for `i ∈ [0, len-3]`. -/
def trigramsOf (cs : List Char) : List String :=
  (List.range (cs.length - 2)).map fun i => String.mk ((cs.drop i).take 3)

/-- `TrigramIndex.AddFile`: store the content and insert the path under every
overlapping trigram (`map[string]struct{}` insertion is idempotent). -/
def trigramAddFile (t : TrigramIndex) (path content : String) : TrigramIndex :=
  let files := insertA t.files path content
  let trigrams := (trigramsOf content.toList).foldl
    (fun m tri =>
      let bucket := (lookupA m tri).getD []
      if bucket.contains path then m else insertA m tri (bucket ++ [path]))
    t.trigrams
  { trigrams := trigrams, files := files }

/-- `TrigramIndex.RemoveFile`. -/
def trigramRemoveFile (t : TrigramIndex) (path : String) : TrigramIndex :=
  match lookupA t.files path with
  | none => t
  | some content =>
    let files := eraseA t.files path
    let trigrams := (trigramsOf content.toList).foldl
      (fun m tri =>
        match lookupA m tri with
        | none => m
        | some bucket =>
          let b2 := bucket.filter fun p => p ≠ path
          if b2.isEmpty then eraseA m tri else insertA m tri b2)
      t.trigrams
    { trigrams := trigrams, files := files }

/-- `patternInfo`: the compiled verifier regex is represented by the literal
pattern (the source applies `regexp.QuoteMeta`, so the pattern occurs in the
regex as a literal) together with the `endsWithSpecial` flavor flag; the
function `verifierMatchAt` below interprets the pair with the regex's
semantics. -/
structure PatternInfo where
  pattern : List Char
  endsWithSpecial : Bool
deriving DecidableEq, Repr

/-- `buildPatternInfo`: patterns ending in `?`, `!` or `=` get the
`\bE(?:[^a-zA-Z0-9_]|$)` verifier, all others `\bE\b`. -/
def buildPatternInfo (pattern : String) : PatternInfo :=
  let cs := pattern.toList
  match cs.getLast? with
  | some c =>
    if c = '?' || c = '!' || c = '=' then { pattern := cs, endsWithSpecial := true }
    else { pattern := cs, endsWithSpecial := false }
  | none => { pattern := cs, endsWithSpecial := false }

def isWordAt (line : List Char) (i : Nat) : Bool :=
  match line.get? i with
  | some c => isWordChar c
  | none => false

/-- The `\b` assertion of Go's regexp (ASCII word boundary) at offset `i`. -/
def boundaryAt (line : List Char) (i : Nat) : Bool :=
  (if i = 0 then false else isWordAt line (i - 1)) != isWordAt line i

/-- The verifier regex anchored at offset `i` of `line`:
`\bE(?:[^a-zA-Z0-9_]|$)` when `endsWithSpecial` (leftmost-first alternation:
a non-word character is consumed when present, otherwise `$` must hold),
`\bE\b` otherwise.  Returns the regex match length. -/
def verifierMatchAt (p : PatternInfo) (line : List Char) (i : Nat) : Option Nat :=
  if p.pattern.isPrefixOf (line.drop i) && boundaryAt line i then
    let j := i + p.pattern.length
    if p.endsWithSpecial then
      if j = line.length then some p.pattern.length
      else if ¬ isWordAt line j then some (p.pattern.length + 1)
      else none
    else
      if boundaryAt line j then some p.pattern.length else none
  else none

/-- `regexp.FindAllStringIndex`: successive leftmost non-overlapping matches;
an empty match advances by one position.  Fuel bounds the scan
(`line.length + 1` suffices). -/
def findAllMatches (p : PatternInfo) (line : List Char) : Nat → Nat → List (Nat × Nat)
  | 0, _ => []
  | fuel + 1, i =>
    if i > line.length then []
    else
      match verifierMatchAt p line i with
      | some len =>
        if len = 0 then (i, 0) :: findAllMatches p line fuel (i + 1)
        else (i, len) :: findAllMatches p line fuel (i + len)
      | none => findAllMatches p line fuel (i + 1)

/-- `bufio.ScanLines` line splitting: split on `\n`, no token after a final
newline, and a trailing `\r` is stripped from each line. -/
def dropCR (l : List Char) : List Char :=
  if l.getLast? = some '\r' then l.dropLast else l

def goScanLines (content : String) : List (List Char) :=
  let cs := content.toList
  if cs.isEmpty then []
  else
    let ls := splitOnChar '\n' cs
    let ls := if cs.getLast? = some '\n' then ls.dropLast else ls
    ls.map dropCR

/-- The references of one scanned line (the inner loop of
`searchInContentWithInfo`): when the pattern ends in `?`/`!`/`=` the regex
consumed one extra character, so the reported length is the original pattern
length. -/
def searchLineRefs (path : String) (p : PatternInfo) (patternLen : Nat)
    (pr : Nat × List Char) : List Reference :=
  let lineNum := pr.1 + 1
  let line := pr.2
  (findAllMatches p line (line.length + 1) 0).map fun m =>
    let length := if p.endsWithSpecial ∧ patternLen > 0 then patternLen else m.2
    { filePath := path, line := lineNum, column := m.1, length := length,
      lineText := String.mk line }

/-- `searchInContentWithInfo`: verify matches line by line. -/
def searchInContentWithInfo (path : String) (content : String) (p : PatternInfo)
    (patternLen : Nat) : List Reference :=
  (goScanLines content).enum.foldl
    (fun refs pr => refs ++ searchLineRefs path p patternLen pr) []

/-- The intersection loop of `findCandidates` (with the early-exit on an
absent trigram or an emptied candidate set). -/
def intersectCandidates (t : TrigramIndex) : List String → List String → List String
  | cand, [] => cand
  | cand, tri :: rest =>
    match lookupA t.trigrams tri with
    | none => []
    | some bucket =>
      let c2 := cand.filter fun p => bucket.contains p
      if c2.isEmpty then [] else intersectCandidates t c2 rest

/-- `findCandidates`: all files for patterns shorter than 3 bytes, otherwise
the intersection of the buckets of every overlapping trigram. -/
def findCandidates (t : TrigramIndex) (pattern : String) : List String :=
  let cs := pattern.toList
  if cs.length < 3 then t.files.map Prod.fst
  else
    match trigramsOf cs with
    | [] => []
    | tri0 :: rest =>
      match lookupA t.trigrams tri0 with
      | none => []
      | some bucket0 =>
        if bucket0.isEmpty then [] else intersectCandidates t bucket0 rest

/-- The per-candidate body of `TrigramIndex.Search` (a candidate whose
content is missing from the cache contributes nothing). -/
def searchFileRefs (t : TrigramIndex) (pinfo : PatternInfo) (patternLen : Nat)
    (path : String) : List Reference :=
  match lookupA t.files path with
  | none => []
  | some content => searchInContentWithInfo path content pinfo patternLen

/-- `TrigramIndex.Search`. -/
def trigramSearch (t : TrigramIndex) (pattern : String) : List Reference :=
  let candidates := findCandidates t pattern
  if candidates.isEmpty then []
  else
    let pinfo := buildPatternInfo pattern
    candidates.foldl
      (fun refs path => refs ++ searchFileRefs t pinfo pattern.length path) []

/-! ### Symbol index (package index, Index part) -/

structure IndexState where
  symbols : List (String × List Symbol) := []
  shortNames : List (String × List String) := []
  byFile : List (String × List Symbol) := []
  trigram : TrigramIndex := {}
deriving DecidableEq, Repr

def emptyIndex : IndexState := {}

/-- `Index.AddFile`.  The Go method reads the bytes from disk
(`os.ReadFile`); the file system is modelled by passing the content
explicitly, and the error-return path (which indexes nothing) by not calling
this function. -/
def addFile (st : IndexState) (path content : String) : IndexState :=
  let syms := parse path content
  let byFile := insertA st.byFile path syms
  let maps := syms.foldl
    (fun (acc : List (String × List Symbol) × List (String × List String)) sym =>
      let sm := insertA acc.1 sym.fullName (((lookupA acc.1 sym.fullName).getD []) ++ [sym])
      let bucket := (lookupA acc.2 sym.name).getD []
      let sn :=
        if bucket.contains sym.fullName then acc.2
        else insertA acc.2 sym.name (bucket ++ [sym.fullName])
      (sm, sn))
    (st.symbols, st.shortNames)
  { symbols := maps.1, shortNames := maps.2, byFile := byFile,
    trigram := trigramAddFile st.trigram path content }

/-- The per-symbol body of the `RemoveFile` loop: filter the primary bucket
by file identity (deleting it when emptied), then garbage-collect the
short-name entry when the primary bucket is now empty. -/
def removeSymbolStep (acc : List (String × List Symbol) × List (String × List String))
    (path : String) (sym : Symbol) :
    List (String × List Symbol) × List (String × List String) :=
  let existing := (lookupA acc.1 sym.fullName).getD []
  let filtered := existing.filter fun s => s.filePath ≠ path
  let sm := if filtered.isEmpty then eraseA acc.1 sym.fullName
            else insertA acc.1 sym.fullName filtered
  let sn :=
    if ((lookupA sm sym.fullName).getD []).length = 0 then
      let fullNames := (lookupA acc.2 sym.name).getD []
      let f := fullNames.filter fun fn => fn ≠ sym.fullName
      if f.isEmpty then eraseA acc.2 sym.name else insertA acc.2 sym.name f
    else acc.2
  (sm, sn)

/-- `Index.RemoveFile`. -/
def removeFile (st : IndexState) (path : String) : IndexState :=
  let syms := (lookupA st.byFile path).getD []
  let byFile := eraseA st.byFile path
  let maps := syms.foldl (fun acc sym => removeSymbolStep acc path sym)
    (st.symbols, st.shortNames)
  { symbols := maps.1, shortNames := maps.2, byFile := byFile,
    trigram := trigramRemoveFile st.trigram path }

/-- `Index.UpdateFile`: remove then re-add. -/
def updateFile (st : IndexState) (path content : String) : IndexState :=
  addFile (removeFile st path) path content

/-- The targeting scan at the top of `findDefinitionsLocked`: the first
stored symbol (iterating `byFile`) whose name equals the query and whose
`TargetName` is non-empty.  Go map iteration order is unspecified; list
order is used, and every state queried below has at most one matching
symbol, making the choice immaterial. -/
def findRedirect (st : IndexState) (name : String) : Option String :=
  st.byFile.findSome? fun pr =>
    pr.2.findSome? fun sym =>
      if sym.name = name ∧ sym.targetName ≠ "" then some sym.targetName else none

/-- The non-redirect part of `findDefinitionsLocked`: exact full-name match
in the primary map, then the short-name fallback, else empty. -/
def noRedirectResolve (st : IndexState) (name : String) : List Symbol :=
  match lookupA st.symbols name with
  | some syms => syms
  | none =>
    match lookupA st.shortNames name with
    | some fullNames =>
      let result := fullNames.foldl (fun acc fn => acc ++ ((lookupA st.symbols fn).getD [])) []
      if result.length > 0 then result else []
    | none => []

/-- `findDefinitionsLocked` / `Index.FindDefinitions`.  The Go function
recurses unconditionally on a targeting redirect; the recursion is indexed
by fuel, `none` meaning it did not complete within `fuel` steps (each step
is one redirect followed by at most one terminal resolution). -/
def findDefFuel : Nat → IndexState → String → Option (List Symbol)
  | 0, _, _ => none
  | fuel + 1, st, name =>
    match findRedirect st name with
    | some target => findDefFuel fuel st target
    | none => some (noRedirectResolve st name)

/-- `Index.FindDefinitionsInFile`: resolve, then stable-sort the same-file
symbols first. -/
def findDefinitionsInFile (fuel : Nat) (st : IndexState) (name path : String) :
    Option (List Symbol) :=
  match findDefFuel fuel st name with
  | none => none
  | some all =>
    if all.isEmpty then some []
    else
      let sameFile := all.filter fun s => s.filePath = path
      let others := all.filter fun s => s.filePath ≠ path
      some (sameFile ++ others)

/-- Outcome of the scope-prefix candidate loop of
`FindDefinitionsInContext`. -/
inductive LoopOut where
  | diverge
  | found (r : List Symbol)
  | notFound
deriving DecidableEq, Repr

/-- The candidate loop `for i := len(scope); i > 0; i--` of
`FindDefinitionsInContext`: try `scope[:i] ++ "::" ++ name`, most specific
first, returning the first non-empty resolution. -/
def ctxScopeLoop (fuel : Nat) (st : IndexState) (name : String) (scope : List String) :
    Nat → LoopOut
  | 0 => LoopOut.notFound
  | i + 1 =>
    let candidate := String.intercalate "::" (scope.take (i + 1)) ++ "::" ++ name
    match findDefFuel fuel st candidate with
    | none => LoopOut.diverge
    | some results =>
      if results.length > 0 then LoopOut.found results
      else ctxScopeLoop fuel st name scope i

/-- `Index.FindDefinitionsInContext`.

Modelled from the spec: the source reads the file bytes with `os.ReadFile`
and calls `Scanner.ScopeAtLine(content, line)` — a scanner entry point whose
definition is not among the provided sources ("a separate read-only entry
point … returning the scope stack at that line").  That scope chain is
passed here as the explicit parameter `scopeAt`; `none` models the
`os.ReadFile` error path, in which the candidate loop is skipped.  The
`::`-prefixed and unqualified branches do not consult it. -/
def findDefinitionsInContext (fuel : Nat) (st : IndexState) (name path : String)
    (_line : Nat) (scopeAt : Option (List String)) : Option (List Symbol) :=
  if goStartsWith name "::" then findDefFuel fuel st (String.mk (name.toList.drop 2))
  else if strIndex name.toList "::".toList ≥ 0 then
    let afterScope :=
      match scopeAt with
      | none => LoopOut.notFound
      | some scope => ctxScopeLoop fuel st name scope scope.length
    match afterScope with
    | LoopOut.diverge => none
    | LoopOut.found r => some r
    | LoopOut.notFound =>
      match findDefFuel fuel st name with
      | none => none
      | some results =>
        if results.length > 0 then some results
        else findDefinitionsInFile fuel st name path
  else findDefinitionsInFile fuel st name path

/-- `Index.FindLocalVariable`. -/
def findLocalVariable (st : IndexState) (name path : String) (cursorLine : Nat) :
    Option Symbol :=
  match lookupA st.byFile path with
  | none => none
  | some syms =>
    let containing := syms.find? fun sym =>
      decide ((sym.kind = SymbolKind.KindMethod ∨ sym.kind = SymbolKind.KindSingletonMethod) ∧
        sym.line ≤ cursorLine ∧ cursorLine ≤ sym.endLine)
    match containing with
    | none => none
    | some m =>
      syms.find? fun sym =>
        decide (sym.kind = SymbolKind.KindLocalVariable ∧ sym.name = name ∧
          sym.methodFullName = m.fullName ∧ m.line < sym.line ∧ sym.line ≤ m.endLine)

/-- `Index.FindTargetingSymbols`. -/
def findTargetingSymbols (st : IndexState) (targetName : String) : List Symbol :=
  st.byFile.foldl (fun acc pr => acc ++ pr.2.filter fun s => s.targetName = targetName) []

/-- `Index.SymbolsInFile`. -/
def symbolsInFile (st : IndexState) (path : String) : List Symbol :=
  (lookupA st.byFile path).getD []

/-- `Index.FindReferences`: delegate to the trigram index. -/
def findReferences (st : IndexState) (name : String) : List Reference :=
  trigramSearch st.trigram name

/-! ### The spec's description of relation target inference (claim C9)

A second rendering of the snake_case→PascalCase conversion, following the
claim's wording rather than the source: split on `_`, singularize only the
final segment (and only when requested, i.e. for `has_many`), capitalize the
first byte of each segment, concatenate.  The singularization rules are the
claim's ordered list.  `specToClassName` is to be compared with the source's
`toClassName`. -/

def specSingular (word : String) : String :=
  if word = "people" then "person"
  else if word = "children" then "child"
  else if word = "men" then "man"
  else if word = "women" then "woman"
  else if word = "teeth" then "tooth"
  else if word = "feet" then "foot"
  else if word = "mice" then "mouse"
  else if word = "geese" then "goose"
  else
    let cs := word.toList
    if "ies".toList.isSuffixOf cs ∧ cs.length > 3 then
      String.mk (cs.take (cs.length - 3) ++ "y".toList)
    else if "ves".toList.isSuffixOf cs ∧ cs.length > 3 then
      String.mk (cs.take (cs.length - 3) ++ "f".toList)
    else if "ses".toList.isSuffixOf cs ∨ "xes".toList.isSuffixOf cs ∨
            "zes".toList.isSuffixOf cs ∨ "ches".toList.isSuffixOf cs ∨
            "shes".toList.isSuffixOf cs then
      String.mk (cs.take (cs.length - 2))
    else if "s".toList.isSuffixOf cs ∧ cs.length > 1 then
      String.mk (cs.take (cs.length - 1))
    else word

/-- Capitalization of the first byte of a segment, per the claim. -/
def specCapitalize (p : String) : String :=
  match p.toList with
  | [] => p
  | c :: rest => String.mk (c.toUpper :: rest)

/-- "only the final underscore-separated segment is singularized":
singularization applied to the last element alone. -/
def specSingularizeLast : List String → List String
  | [] => []
  | [s] => [specSingular s]
  | s :: rest => s :: specSingularizeLast rest

/-- The claim's conversion: split on `_`, singularize only the final segment
(when requested), capitalize the first byte of each segment, concatenate. -/
def specToClassName (name : String) (singularize : Bool) : String :=
  let segs := goSplit name "_"
  let segs := if singularize then specSingularizeLast segs else segs
  String.join (segs.map specCapitalize)

/-! ### Reachable index states and structural invariants -/

/-- Index states reachable through the public operations, under the
remove-before-re-add discipline: `AddFile` is applied only to paths not
currently indexed (`Build` enumerates each path once; incremental changes go
through `UpdateFile`, which removes first). -/
inductive Reach : IndexState → Prop where
  | init : Reach emptyIndex
  | add {st : IndexState} (path content : String) :
      Reach st → lookupA st.byFile path = none → Reach (addFile st path content)
  | remove {st : IndexState} (path : String) :
      Reach st → Reach (removeFile st path)
  | update {st : IndexState} (path content : String) :
      Reach st → Reach (updateFile st path content)

/-- Structural invariant of the index maps: per-file buckets hold symbols of
that file, primary buckets are keyed by full name and shadow the per-file
map, and every per-file bucket is a scanner output. -/
def WFIndex (st : IndexState) : Prop :=
  (∀ pr ∈ st.byFile, ∀ s ∈ pr.2, s.filePath = pr.1) ∧
  (∀ fn l, lookupA st.symbols fn = some l → ∀ s ∈ l,
     s.fullName = fn ∧ s ∈ (lookupA st.byFile s.filePath).getD []) ∧
  (∀ p l, lookupA st.byFile p = some l → ∃ c, l = parse p c)

/-- The smallest line number at which the scanner can still emit a symbol or
set an `EndLine`, given that the next physical line number is `bound`: the
start line of an active accumulation, otherwise `bound` itself. -/
def nextEff (st : ScanState) (bound : Nat) : Nat :=
  match st.acc with
  | some a => a.startLine
  | none => bound

/-- Core invariant of the scanner state: symbols carry the scanned file path
and lines strictly below `bound`; the current method symbol index is valid,
of method kind, still open, and named by the current method context; and
every emitted local variable has a method witness. -/
def AuxInv (path : String) (st : ScanState) (bound : Nat) : Prop :=
  (∀ s ∈ st.symbols, s.filePath = path) ∧
  (∀ s ∈ st.symbols, s.line < bound) ∧
  (∀ cm, st.currentMethod = some cm →
    ∃ k m, st.methodSymbol = some k ∧ st.symbols.get? k = some m ∧
      (m.kind = SymbolKind.KindMethod ∨ m.kind = SymbolKind.KindSingletonMethod) ∧
      m.fullName = cm.fullName ∧ m.endLine = 0) ∧
  (∀ v ∈ st.symbols, v.kind = SymbolKind.KindLocalVariable →
    ∃ m ∈ st.symbols,
      (m.kind = SymbolKind.KindMethod ∨ m.kind = SymbolKind.KindSingletonMethod) ∧
      m.fullName = v.methodFullName ∧ m.line < v.line ∧
      (m.endLine = 0 ∨ v.line ≤ m.endLine))

/-- Loop invariant of `Scanner.Parse` when the next physical line number is
`bound`: the core invariant below the next effective line, and an active
accumulation started strictly earlier. -/
def ScanInv (path : String) (st : ScanState) (bound : Nat) : Prop :=
  AuxInv path st (nextEff st bound) ∧ ∀ a, st.acc = some a → a.startLine < bound

/-! ### Concrete scenario inputs (spec §8) and counterexample states -/

/-- S4: class with a `case`/`end` inside one method and a `do`/`end` block in
a second method. -/
def s4Content : String :=
  "class Animal\n  def classify(t)\n    case t\n    when 'x'\n      true\n    else\n      false\n    end\n  end\n\n  def domesticated?\n    traits.all? do |t| classify(t) end\n  end\nend"

def s4State : IndexState := addFile emptyIndex "a.rb" s4Content

/-- S3: a class defining `Billing::Invoice`. -/
def s3Invoice : String := "class Billing::Invoice\nend"

/-- S3: `has_many(` whose parentheses close four physical lines later. -/
def s3Account : String :=
  "class Account\n  has_many(\n    :invoices,\n    class_name: 'Billing::Invoice',\n  )\nend"

def s3State : IndexState :=
  addFile (addFile emptyIndex "invoice.rb" s3Invoice) "account.rb" s3Account

/-- S5: one `def ensure_valid!` and two calls. -/
def s5Content : String :=
  "class Record\n  def ensure_valid!\n    true\n  end\n\n  def save\n    ensure_valid!\n    ensure_valid! if dirty\n  end\nend"

def s5State : IndexState := addFile emptyIndex "r.rb" s5Content

/-- The reference at the S5 definition site (line 2, column 6). -/
def s5DefRef : Reference :=
  { filePath := "r.rb", line := 2, column := 6, length := 13,
    lineText := "  def ensure_valid!" }

/-- S2: nested modules defining `Verification::Matcher::Checker`. -/
def s2Def : String :=
  "module Verification\n  module Matcher\n    class Checker\n    end\n  end\nend"

/-- S2: the using file. -/
def s2Use : String :=
  "module Verification\n  class Runner\n    def run\n      Matcher::Checker.new\n    end\n  end\nend"

def s2State : IndexState := addFile (addFile emptyIndex "def.rb" s2Def) "use.rb" s2Use

/-- The scope chain of `use.rb` at line 4 (inside `Verification::Runner`). -/
def s2ScopeAt : Option (List String) := some ["Verification", "Runner"]

/-- A two-step redirect chain: `alpha` targets `beta`, the relation named
`beta` targets `Gamma`, and class `Gamma` exists. -/
def chainGamma : String := "class Gamma\nend"

def chainHost1 : String := "class HostOne\n  belongs_to :alpha, class_name: 'beta'\nend"

def chainHost2 : String := "class HostTwo\n  belongs_to :beta, class_name: 'Gamma'\nend"

def chainState : IndexState :=
  addFile (addFile (addFile emptyIndex "gamma.rb" chainGamma) "host1.rb" chainHost1)
    "host2.rb" chainHost2

/-- A redirect cycle: `alpha` targets `beta` and `beta` targets `alpha`. -/
def cycleHost2 : String := "class HostTwo\n  belongs_to :beta, class_name: 'alpha'\nend"

def cycleState : IndexState :=
  addFile (addFile emptyIndex "host1.rb" chainHost1) "host2.rb" cycleHost2

/-- Add the same path twice with different contents, then remove it: the
symbols of the first content are no longer listed in the per-file map when
`RemoveFile` runs, so they survive in the primary map. -/
def dblState : IndexState :=
  removeFile (addFile (addFile emptyIndex "p.rb" "class Foo\nend") "p.rb" "class Bar\nend")
    "p.rb"

/-- A method without a closing `end`: its `EndLine` stays 0. -/
def noEndContent : String := "class K\n  def run\n    x = 1"

def noEndState : IndexState := addFile emptyIndex "m.rb" noEndContent

/-- The local variable `x` stored for `noEndContent` (the last symbol of the
file bucket). -/
def noEndX : Symbol := (symbolsInFile noEndState "m.rb").getLastD {}

/-- Relation line, context, result and symbol used to witness C9. -/
def c9Line : List Char := ("  has_many :comments").toList

def c9Ctx : ParseContext :=
  { filePath := "/test/model.rb", currentScope := ["Post"], lineNum := 10 }

def c9Result : MatchResult := (relationMatch c9Line c9Ctx).getD {}

def c9Sym : Symbol := c9Result.symbols.getLastD {}

/-- Shape facts holding for every result any registered matcher can return
at context `ctx`; the scanner invariant proofs consume them. -/
def ResultOK (ctx : ParseContext) (r : MatchResult) : Prop :=
  (∀ s ∈ r.symbols, s.filePath = ctx.filePath ∧ s.line = ctx.lineNum ∧ s.endLine = 0) ∧
  (∀ s ∈ r.symbols, s.kind = SymbolKind.KindLocalVariable →
    ∃ cm, ctx.currentMethod = some cm ∧ s.methodFullName = cm.fullName) ∧
  (∀ em, r.enterMethod = some em →
    ∃ sym, r.symbols = [sym] ∧
      (sym.kind = SymbolKind.KindMethod ∨ sym.kind = SymbolKind.KindSingletonMethod) ∧
      sym.fullName = em.fullName ∧ findMethodIdx r.symbols = some 0) ∧
  (r.popScope = true → r.symbols = [] ∧ r.enterMethod = none ∧ r.pushScope = "")

/-- Loop invariant of the `RemoveFile` per-symbol fold over the removed
file's bucket (`rest` is the part still to be processed): every primary-map
entry has its key as full name, lies in the pre-removal per-file bucket of
its own file, and — when its file is the removed path — its full name is
still scheduled for processing. -/
def RemInv (st : IndexState) (p : String) (rest : List Symbol)
    (acc1 : List (String × List Symbol)) : Prop :=
  ∀ fn l, lookupA acc1 fn = some l → ∀ s ∈ l,
    s.fullName = fn ∧ s ∈ (lookupA st.byFile s.filePath).getD [] ∧
    (s.filePath = p → ∃ sym ∈ rest, sym.fullName = fn)

/-- Loop invariant of the `AddFile` per-symbol fold: every primary-map entry
has its key as full name and comes from the old index or from the newly
parsed symbols. -/
def AddInv (st : IndexState) (syms : List Symbol)
    (acc1 : List (String × List Symbol)) : Prop :=
  ∀ fn l, lookupA acc1 fn = some l → ∀ s ∈ l,
    s.fullName = fn ∧ (s ∈ (lookupA st.byFile s.filePath).getD [] ∨ s ∈ syms)

/-- A well-formed file (method closed by `end`) holding one local variable;
used to instantiate the reachable-state theorems. -/
def wContent : String := "class K\n  def run\n    x = 1\n  end\nend"

def wState : IndexState := addFile emptyIndex "w.rb" wContent

/-! ## Theorems -/

/-- Fuel monotonicity of the `findDefinitionsLocked` recursion: a completed
resolution is stable under more fuel. -/
theorem findDefFuel_mono {n m : Nat} {st : IndexState} {name : String} {r : List Symbol}
    (h : findDefFuel n st name = some r) (hnm : n ≤ m) :
    findDefFuel m st name = some r := by
  induction n generalizing m name with
  | zero => simp [findDefFuel] at h
  | succ k ih =>
    obtain ⟨m', rfl⟩ : ∃ m', m = m' + 1 := ⟨m - 1, by omega⟩
    rw [findDefFuel] at h ⊢
    cases hr : findRedirect st name with
    | some target => rw [hr] at h; exact ih h (by omega)
    | none => rw [hr] at h; exact h

/-- C1 (code_bug evidence): on the S4 input the scanner pops the `Animal`
scope before the second method is scanned — the `end` closing the `case`
statement is charged against `def classify` (whose `end_line` becomes 8) and
the `end` closing `def classify` pops the class scope — so
`FindDefinitions("domesticated?")` returns exactly one Symbol whose
full_name is `"#domesticated?"`, not `"Animal#domesticated?"`. -/
theorem C1_s4_scope_is_popped :
    (findDefFuel 2 s4State "domesticated?").map (fun l => l.map Symbol.fullName)
        = some ["#domesticated?"] ∧
    (parse "a.rb" s4Content).map (fun s => (s.fullName, s.scope, s.endLine))
        = [("Animal", [], 0), ("Animal#classify", ["Animal"], 8), ("#domesticated?", [], 13)] := by
  constructor <;> decide

/-- C8 (code_bug evidence): `constantPattern` has no rejection of comparison
operators, so `ConstantMatcher.Match` on `MY_CONSTANT == 42` emits a
Constant symbol (the first `=` of `==` satisfies `^\s*([A-Z][A-Z0-9_]*)\s*=`),
although the matcher's own test table expects nil for this line. -/
theorem C8_constant_accepts_comparison :
    (constantMatch ("MY_CONSTANT == 42").toList
        { filePath := "/test/test.rb", currentScope := [], lineNum := 1 }).map
      (fun r => r.symbols.map Symbol.name) = some ["MY_CONSTANT"] ∧
    (constantMatch ("MY_CONSTANT === 42").toList
        { filePath := "/test/test.rb", currentScope := [], lineNum := 1 }).map
      (fun r => r.symbols.map Symbol.name) = some ["MY_CONSTANT"] := by
  constructor <;> decide

/-- C10 (code_bug evidence): on the reachable state with two relations whose
target names refer to each other (`alpha` → `beta` → `alpha`), the targeting
recursion of `FindDefinitions("alpha")` consumes any amount of fuel without
completing — the Go recursion never terminates. -/
theorem C10_redirect_cycle_diverges (fuel : Nat) :
    findDefFuel fuel cycleState "alpha" = none ∧
    findDefFuel fuel cycleState "beta" = none := by
  induction fuel with
  | zero => exact ⟨rfl, rfl⟩
  | succ n ih =>
    have ha : findRedirect cycleState "alpha" = some "beta" := by decide
    have hb : findRedirect cycleState "beta" = some "alpha" := by decide
    rw [findDefFuel, findDefFuel, ha, hb]
    exact ⟨ih.2, ih.1⟩

/-- C3 (counterexample): on the reachable chain state, `FindDefinitions`
applied to `alpha` redirects to `beta`, but the result is not the
exact-plus-short-name resolution of `beta` (which is the relation symbol
`HostTwo::beta`): the redirection recurses a second time through that
relation's target_name and lands on class `Gamma`. -/
theorem C3_counterexample :
    findRedirect chainState "alpha" = some "beta" ∧
    (findDefFuel 9 chainState "alpha").map (fun l => l.map Symbol.fullName)
        = some ["Gamma"] ∧
    (noRedirectResolve chainState "beta").map Symbol.fullName = ["HostTwo::beta"] ∧
    findDefFuel 9 chainState "alpha" ≠ some (noRedirectResolve chainState "beta") := by
  refine ⟨by decide, by decide, by decide, ?_⟩
  decide

/-- C3 (amended): the targeting redirection is applied recursively — when a
stored Symbol's name equals the queried name and its target_name is
non-empty, `FindDefinitions` resolves the target_name with the full
procedure, including any further redirection through other symbols'
target_names. -/
theorem C3_redirect_recurses (st : IndexState) (name target : String) (fuel : Nat)
    (h : findRedirect st name = some target) :
    findDefFuel (fuel + 1) st name = findDefFuel fuel st target := by
  rw [findDefFuel, h]

theorem C3_redirect_recurses_witness :
    findRedirect chainState "alpha" = some "beta" ∧
    findDefFuel 9 chainState "alpha" = findDefFuel 8 chainState "beta" :=
  ⟨by decide, C3_redirect_recurses chainState "alpha" "beta" 8 (by decide)⟩

/-- C4 (counterexample): in the reachable S2 state no stored Symbol has the
exact full_name `Checker`, yet `FindDefinitionsInContext("::Checker", …)`
is non-empty — the `::` branch delegates to `FindDefinitions`, whose
short-name fallback finds `Verification::Matcher::Checker`. -/
theorem C4_counterexample :
    lookupA s2State.symbols "Checker" = none ∧
    (findDefinitionsInContext 5 s2State "::Checker" "use.rb" 4 s2ScopeAt).map
        (fun l => l.map Symbol.fullName)
      = some ["Verification::Matcher::Checker"] := by
  constructor <;> decide

/-- C4 (amended): a name beginning with `::` is stripped and delegated to
`FindDefinitions` on the remainder — the full resolution, including
targeting redirection and short-name fallback, not exact-only resolution;
the S2 query `::Matcher::Checker` still returns empty because no redirect,
no exact full name and no short name matches `Matcher::Checker`. -/
theorem C4_absolute_delegates (fuel : Nat) (st : IndexState) (name path : String)
    (line : Nat) (scopeAt : Option (List String)) (h : goStartsWith name "::") :
    findDefinitionsInContext fuel st name path line scopeAt
        = findDefFuel fuel st (String.mk (name.toList.drop 2)) ∧
    findDefinitionsInContext 5 s2State "::Matcher::Checker" "use.rb" 4 s2ScopeAt
        = some [] := by
  refine ⟨?_, by decide⟩
  simp only [findDefinitionsInContext, h, if_true]

theorem C4_absolute_delegates_witness :
    goStartsWith "::Checker" "::" = true ∧
    findDefinitionsInContext 5 s2State "::Checker" "use.rb" 4 s2ScopeAt
      = findDefFuel 5 s2State (String.mk (("::Checker").toList.drop 2)) :=
  ⟨by decide,
   (C4_absolute_delegates 5 s2State "::Checker" "use.rb" 4 s2ScopeAt (by decide)).1⟩

/-- C5 (confirmed): for the S3 inputs, after adding both files the multiline
assembler folds the `has_many(` construct into one logical line starting at
line 2, the relation matcher extracts `Billing::Invoice` from the folded
text, and `FindDefinitions("invoices")` resolves the targeting redirect to
exactly one Symbol with full_name `Billing::Invoice` (any fuel ≥ 2 covers
the single redirect step). -/
theorem C5_s3_multiline_redirect (fuel : Nat) (h : 2 ≤ fuel) :
    (findDefFuel fuel s3State "invoices").map (fun l => l.map Symbol.fullName)
        = some ["Billing::Invoice"] ∧
    (parse "account.rb" s3Account).map (fun s => (s.name, s.targetName, s.line))
        = [("Account", "", 1), ("invoices", "Billing::Invoice", 2)] := by
  have h2 : findDefFuel 2 s3State "invoices"
      = some ((lookupA s3State.symbols "Billing::Invoice").getD []) := by decide
  rw [findDefFuel_mono h2 h]
  constructor <;> decide

theorem C5_s3_multiline_redirect_witness :
    2 ≤ 2 ∧
    (findDefFuel 2 s3State "invoices").map (fun l => l.map Symbol.fullName)
      = some ["Billing::Invoice"] :=
  ⟨by decide, (C5_s3_multiline_redirect 2 (by decide)).1⟩

/-! ### C2: word-boundary verification of references -/

/-- Every accumulated element of a fold that only appends satisfies `Q` when
the seed and every appended block do. -/
theorem foldl_append_ok {α β : Type} (Q : α → Prop) (f : β → List α) :
    ∀ (l : List β) (acc : List α), (∀ r ∈ acc, Q r) →
      (∀ b ∈ l, ∀ r ∈ f b, Q r) →
      ∀ r ∈ l.foldl (fun refs b => refs ++ f b) acc, Q r := by
  intro l
  induction l with
  | nil => intro acc ha _ r hr; exact ha r hr
  | cons b bs ih =>
    intro acc ha hf r hr
    refine ih (acc ++ f b) ?_ (fun b' hb' => hf b' (List.mem_cons_of_mem _ hb')) r hr
    intro r' hr'
    rcases List.mem_append.mp hr' with h | h
    · exact ha r' h
    · exact hf b (List.mem_cons_self _ _) r' h

/-- Every pair produced by the non-overlapping scan is a verifier match at
its start offset with its recorded length. -/
theorem findAllMatches_sound (p : PatternInfo) (line : List Char) :
    ∀ (fuel i : Nat) (pr : Nat × Nat), pr ∈ findAllMatches p line fuel i →
      verifierMatchAt p line pr.1 = some pr.2 := by
  intro fuel
  induction fuel with
  | zero => intro i pr h; simp [findAllMatches] at h
  | succ n ih =>
    intro i pr h
    rw [findAllMatches] at h
    by_cases hi : i > line.length
    · rw [if_pos hi] at h; simp at h
    · rw [if_neg hi] at h
      cases hv : verifierMatchAt p line i with
      | none => rw [hv] at h; exact ih _ _ h
      | some len =>
        rw [hv] at h
        dsimp only at h
        by_cases hlen : len = 0
        · rw [if_pos hlen] at h
          rcases List.mem_cons.mp h with h | h
          · subst h; rw [hv, hlen]
          · exact ih _ _ h
        · rw [if_neg hlen] at h
          rcases List.mem_cons.mp h with h | h
          · subst h; exact hv
          · exact ih _ _ h

/-- Every reference built for one line has the original pattern length (in
the special-suffix flavor) and a verifier match at its column in its line
text. -/
theorem searchLineRefs_ok (path : String) (p : PatternInfo) (patternLen : Nat)
    (hs : p.endsWithSpecial = true) (hl : 0 < patternLen) (pr : Nat × List Char) :
    ∀ r ∈ searchLineRefs path p patternLen pr,
      r.length = patternLen ∧
      (verifierMatchAt p r.lineText.toList r.column).isSome = true := by
  intro r hr
  rcases List.mem_map.mp hr with ⟨m, hm, rfl⟩
  have hv := findAllMatches_sound p pr.2 (pr.2.length + 1) 0 m hm
  constructor
  · simp [hs, hl]
  · show (verifierMatchAt p (String.mk pr.2).toList m.1).isSome = true
    have : (String.mk pr.2).toList = pr.2 := rfl
    rw [this, hv]
    rfl

/-- Lifting of `searchLineRefs_ok` to a whole file content. -/
theorem searchInContentWithInfo_ok (path content : String) (p : PatternInfo)
    (patternLen : Nat) (hs : p.endsWithSpecial = true) (hl : 0 < patternLen) :
    ∀ r ∈ searchInContentWithInfo path content p patternLen,
      r.length = patternLen ∧
      (verifierMatchAt p r.lineText.toList r.column).isSome = true := by
  refine foldl_append_ok
    (fun r => r.length = patternLen ∧
      (verifierMatchAt p r.lineText.toList r.column).isSome = true)
    (searchLineRefs path p patternLen) _ []
    (fun r hr => absurd hr (List.not_mem_nil r)) ?_
  intro pr _ r hr
  exact searchLineRefs_ok path p patternLen hs hl pr r hr

/-- Lifting to every candidate file of a search. -/
theorem searchFileRefs_ok (t : TrigramIndex) (p : PatternInfo) (patternLen : Nat)
    (hs : p.endsWithSpecial = true) (hl : 0 < patternLen) (path : String) :
    ∀ r ∈ searchFileRefs t p patternLen path,
      r.length = patternLen ∧
      (verifierMatchAt p r.lineText.toList r.column).isSome = true := by
  intro r hr
  rw [searchFileRefs] at hr
  cases hc : lookupA t.files path with
  | none => rw [hc] at hr; simp at hr
  | some content =>
    rw [hc] at hr
    exact searchInContentWithInfo_ok path content p patternLen hs hl r hr

/-- A pattern whose last byte is `?`, `!` or `=` compiles to the
special-suffix verifier. -/
theorem buildPatternInfo_special {P : String}
    (h : P.toList.getLast? = some '?' ∨ P.toList.getLast? = some '!' ∨
         P.toList.getLast? = some '=') :
    (buildPatternInfo P).endsWithSpecial = true := by
  rcases h with h | h | h <;>
    · rw [buildPatternInfo, show P.toList.getLast? = _ from h]
      simp

/-- A pattern with a last byte is nonempty. -/
theorem length_pos_of_getLast {P : String} {c : Char}
    (h : P.toList.getLast? = some c) : 0 < P.length := by
  cases hP : P.toList with
  | nil => rw [hP] at h; simp at h
  | cons a l =>
    show 0 < P.toList.length
    rw [hP]; simp

/-- C2: for every pattern `P` whose last byte is `?`, `!` or `=`, every
Reference returned by `FindReferences(P)` (i.e. by the trigram search on any
trigram-index state) has length `len(P)` — the trailing sentinel excluded —
and its line text matches the Ruby-aware verifier
`\bE(?:[^A-Za-z0-9_]|$)` at its column; and on the S5 state,
`FindReferences("ensure_valid!")` returns exactly three References — the
definition at line 2 and the two calls at lines 7 and 8 — each of
length 13. -/
theorem C2_reference_verifier :
    (∀ (t : TrigramIndex) (P : String) (r : Reference),
      (P.toList.getLast? = some '?' ∨ P.toList.getLast? = some '!' ∨
       P.toList.getLast? = some '=') →
      r ∈ trigramSearch t P →
      r.length = P.length ∧
      (verifierMatchAt (buildPatternInfo P) r.lineText.toList r.column).isSome = true) ∧
    (findReferences s5State "ensure_valid!").map (fun r => (r.line, r.column, r.length))
      = [(2, 6, 13), (7, 4, 13), (8, 4, 13)] := by
  constructor
  · intro t P r h hr
    have hs := buildPatternInfo_special h
    have hl : 0 < P.length := by
      rcases h with h | h | h <;> exact length_pos_of_getLast h
    rw [trigramSearch] at hr
    by_cases hemp : (findCandidates t P).isEmpty
    · rw [if_pos hemp] at hr; simp at hr
    · rw [if_neg hemp] at hr
      refine foldl_append_ok
        (fun r => r.length = P.length ∧
          (verifierMatchAt (buildPatternInfo P) r.lineText.toList r.column).isSome = true)
        (searchFileRefs t (buildPatternInfo P) P.length) (findCandidates t P) []
        (fun r hr => absurd hr (List.not_mem_nil r)) ?_ r hr
      intro path _ r' hr'
      exact searchFileRefs_ok t (buildPatternInfo P) P.length hs hl path r' hr'
  · decide

/-! ### C9: relation target inference matches the claimed algorithm -/

/-- `getLastD` of a nonempty list ignores its default. -/
theorem getLastD_default_irrel (a : String) (t : List String) (d d2 : String) :
    (a :: t).getLastD d = (a :: t).getLastD d2 := by
  rw [List.getLastD_eq_getLast?, List.getLastD_eq_getLast?]
  rcases h : (a :: t).getLast? with _ | x
  · simp at h
  · rfl

/-- Replacing the element at the last index by its singular form is the same
as singularizing only the final segment. -/
theorem set_last_singular : ∀ (l : List String),
    l.set (l.length - 1) (singular (l.getLastD "")) = specSingularizeLast l
  | [] => rfl
  | [s] => rfl
  | s :: b :: t => by
    have ih := set_last_singular (b :: t)
    have hlast : (s :: b :: t).getLastD "" = (b :: t).getLastD "" := by
      rw [List.getLastD_cons]
      exact getLastD_default_irrel b t s ""
    show List.set (s :: b :: t) ((b :: t).length) (singular ((s :: b :: t).getLastD ""))
      = s :: specSingularizeLast (b :: t)
    rw [hlast]
    show s :: List.set (b :: t) ((b :: t).length - 1) (singular ((b :: t).getLastD ""))
      = s :: specSingularizeLast (b :: t)
    exact congrArg (s :: ·) ih

/-- The source's `toClassName` computes exactly the conversion the claim
describes. -/
theorem toClassName_eq_spec (name : String) (singularize : Bool) :
    toClassName name singularize = specToClassName name singularize := by
  rw [toClassName, specToClassName]
  cases singularize with
  | false => rfl
  | true =>
    by_cases h : (goSplit name "_").length > 0
    · rw [if_pos (⟨rfl, h⟩ : true = true ∧ (goSplit name "_").length > 0),
          if_pos (rfl : true = true), set_last_singular]
      rfl
    · have hnil : goSplit name "_" = [] := List.length_eq_zero.mp (by omega)
      rw [if_neg (fun hc : true = true ∧ (goSplit name "_").length > 0 => h hc.2),
          if_pos (rfl : true = true), hnil]
      rfl

/-- C9: `toClassName` equals the claim's snake_case→PascalCase conversion
with last-segment-only singularization, and for every relation line whose
`class_name:` capture is empty, the emitted Symbol's target_name is that
conversion of the relation name, singularizing exactly when the relation
type is `has_many`. -/
theorem C9_target_inference :
    (∀ (name : String) (singularize : Bool),
        toClassName name singularize = specToClassName name singularize) ∧
    (∀ (line : List Char) (ctx : ParseContext) (rtype rname : String)
        (r : MatchResult) (s : Symbol),
        relationMatch line ctx = some r →
        relationPatternMatch line = some (rtype, rname, "") →
        s ∈ r.symbols →
        s.targetName = specToClassName rname (rtype = "has_many")) := by
  refine ⟨toClassName_eq_spec, ?_⟩
  intro line ctx rtype rname r s h1 h2 hs
  rw [relationMatch] at h1
  by_cases hemp : ctx.currentScope.isEmpty
  · rw [if_pos hemp] at h1; exact absurd h1 (by simp)
  · rw [if_neg hemp, h2] at h1
    simp only [ne_eq, not_true_eq_false, if_false, reduceIte, Option.some.injEq] at h1
    subst h1
    rcases List.mem_singleton.mp hs with rfl
    exact toClassName_eq_spec rname _

theorem C9_target_inference_witness :
    toClassName "business_people" true = specToClassName "business_people" true ∧
    relationPatternMatch c9Line = some ("has_many", "comments", "") ∧
    c9Sym.targetName = specToClassName "comments" ("has_many" = "has_many") :=
  ⟨C9_target_inference.1 "business_people" true, by decide,
   C9_target_inference.2 c9Line c9Ctx "has_many" "comments" c9Result c9Sym
     (by decide) (by decide) (by decide)⟩

theorem C2_reference_verifier_witness :
    (("ensure_valid!").toList.getLast? = some '?' ∨
     ("ensure_valid!").toList.getLast? = some '!' ∨
     ("ensure_valid!").toList.getLast? = some '=') ∧
    s5DefRef ∈ trigramSearch s5State.trigram "ensure_valid!" ∧
    (s5DefRef.length = ("ensure_valid!").length ∧
     (verifierMatchAt (buildPatternInfo "ensure_valid!") s5DefRef.lineText.toList
        s5DefRef.column).isSome = true) :=
  ⟨by decide, by decide,
   C2_reference_verifier.1 s5State.trigram "ensure_valid!" s5DefRef (by decide) (by decide)⟩

/-! ### Shape lemmas for the registered matchers -/

theorem classMatch_ok {line : List Char} {ctx : ParseContext} {r : MatchResult}
    (h : classMatch line ctx = some r) : ResultOK ctx r := by
  rw [classMatch] at h
  cases hm : classPatternMatch line with
  | none => rw [hm] at h; exact absurd h (by simp)
  | some nameChars =>
    rw [hm] at h
    injection h with h
    subst h
    refine ⟨?_, ?_, ?_, ?_⟩
    · intro s hs; rcases List.mem_singleton.mp hs with rfl; exact ⟨rfl, rfl, rfl⟩
    · intro s hs hk; rcases List.mem_singleton.mp hs with rfl; exact absurd hk (by simp)
    · intro em hem; exact absurd hem (by simp)
    · intro hpop; exact absurd hpop (by simp)

theorem moduleMatch_ok {line : List Char} {ctx : ParseContext} {r : MatchResult}
    (h : moduleMatch line ctx = some r) : ResultOK ctx r := by
  rw [moduleMatch] at h
  cases hm : modulePatternMatch line with
  | none => rw [hm] at h; exact absurd h (by simp)
  | some nameChars =>
    rw [hm] at h
    injection h with h
    subst h
    refine ⟨?_, ?_, ?_, ?_⟩
    · intro s hs; rcases List.mem_singleton.mp hs with rfl; exact ⟨rfl, rfl, rfl⟩
    · intro s hs hk; rcases List.mem_singleton.mp hs with rfl; exact absurd hk (by simp)
    · intro em hem; exact absurd hem (by simp)
    · intro hpop; exact absurd hpop (by simp)

theorem methodMatch_ok {line : List Char} {ctx : ParseContext} {r : MatchResult}
    (h : methodMatch line ctx = some r) : ResultOK ctx r := by
  rw [methodMatch] at h
  cases hm : methodPatternMatch line with
  | none => rw [hm] at h; exact absurd h (by simp)
  | some pr =>
    rw [hm] at h
    obtain ⟨isSingleton, nameChars⟩ := pr
    injection h with h
    subst h
    refine ⟨?_, ?_, ?_, ?_⟩
    · intro s hs; rcases List.mem_singleton.mp hs with rfl; exact ⟨rfl, rfl, rfl⟩
    · intro s hs hk
      rcases List.mem_singleton.mp hs with rfl
      revert hk
      by_cases hsing : isSingleton = true <;> simp [hsing]
    · intro em hem
      injection hem with hem
      subst hem
      refine ⟨_, rfl, ?_, rfl, ?_⟩
      · by_cases hsing : isSingleton = true <;> simp [hsing]
      · rw [findMethodIdx]
        rw [if_pos]
        by_cases hsing : isSingleton = true <;> simp [hsing]
    · intro hpop; exact absurd hpop (by simp)

theorem relationMatch_ok {line : List Char} {ctx : ParseContext} {r : MatchResult}
    (h : relationMatch line ctx = some r) : ResultOK ctx r := by
  rw [relationMatch] at h
  by_cases hemp : ctx.currentScope.isEmpty
  · rw [if_pos hemp] at h; exact absurd h (by simp)
  · rw [if_neg hemp] at h
    cases hm : relationPatternMatch line with
    | none => rw [hm] at h; exact absurd h (by simp)
    | some caps =>
      rw [hm] at h
      obtain ⟨rtype, rname, className⟩ := caps
      injection h with h
      subst h
      refine ⟨?_, ?_, ?_, ?_⟩
      · intro s hs; rcases List.mem_singleton.mp hs with rfl; exact ⟨rfl, rfl, rfl⟩
      · intro s hs hk; rcases List.mem_singleton.mp hs with rfl; exact absurd hk (by simp)
      · intro em hem; exact absurd hem (by simp)
      · intro hpop; exact absurd hpop (by simp)

theorem constantMatch_ok {line : List Char} {ctx : ParseContext} {r : MatchResult}
    (h : constantMatch line ctx = some r) : ResultOK ctx r := by
  rw [constantMatch] at h
  cases hm : constantPatternMatch line with
  | none => rw [hm] at h; exact absurd h (by simp)
  | some nameChars =>
    rw [hm] at h
    injection h with h
    subst h
    refine ⟨?_, ?_, ?_, ?_⟩
    · intro s hs; rcases List.mem_singleton.mp hs with rfl; exact ⟨rfl, rfl, rfl⟩
    · intro s hs hk; rcases List.mem_singleton.mp hs with rfl; exact absurd hk (by simp)
    · intro em hem; exact absurd hem (by simp)
    · intro hpop; exact absurd hpop (by simp)

theorem localvarMatch_ok {line : List Char} {ctx : ParseContext} {r : MatchResult}
    (h : localvarMatch line ctx = some r) : ResultOK ctx r := by
  rw [localvarMatch] at h
  cases hcm : ctx.currentMethod with
  | none => rw [hcm] at h; exact absurd h (by simp)
  | some cm =>
    rw [hcm] at h
    dsimp only at h
    by_cases hcomp : comparisonPatternMatch line = true
    · rw [if_pos hcomp] at h; exact absurd h (by simp)
    · rw [if_neg hcomp] at h
      have main : ∀ (syms : List Symbol), r.symbols = syms → r.popScope = false →
          r.enterMethod = none →
          (∀ s ∈ syms, ∃ varName, s = mkLocalVarSymbol varName line ctx cm) →
          ResultOK ctx r := by
        intro syms hsyms hpop henter hform
        refine ⟨?_, ?_, ?_, ?_⟩
        · intro s hs
          obtain ⟨varName, rfl⟩ := hform s (hsyms ▸ hs)
          exact ⟨rfl, rfl, rfl⟩
        · intro s hs _
          obtain ⟨varName, rfl⟩ := hform s (hsyms ▸ hs)
          exact ⟨cm, hcm, rfl⟩
        · intro em hem; rw [henter] at hem; exact absurd hem (by simp)
        · intro hp; rw [hpop] at hp; exact absurd hp (by simp)
      split at h
      next varList heq =>
        split at h
        · exact absurd h (by simp)
        · injection h with h
          refine main _ (by rw [← h]) (by rw [← h]) (by rw [← h]) ?_
          intro s hs
          rcases List.mem_filterMap.mp hs with ⟨v, _, hv⟩
          revert hv
          split
          · intro hv; exact absurd hv (by simp)
          · intro hv
            injection hv with hv
            exact ⟨_, hv.symm⟩
      next heq =>
        split at h
        next nameChars heq2 =>
          injection h with h
          refine main _ (by rw [← h]) (by rw [← h]) (by rw [← h]) ?_
          intro s hs
          rcases List.mem_singleton.mp hs with rfl
          exact ⟨_, rfl⟩
        next heq2 => exact absurd h (by simp)

theorem endMatch_ok {line : List Char} {ctx : ParseContext} {r : MatchResult}
    (h : endMatch line ctx = some r) : ResultOK ctx r := by
  rw [endMatch] at h
  by_cases he : endPatternMatch line = true
  · rw [if_pos he] at h
    injection h with h
    subst h
    exact ⟨by simp, by simp, by simp, fun _ => ⟨rfl, rfl, rfl⟩⟩
  · rw [if_neg he] at h
    exact absurd h (by simp)

/-- Every result the registry's priority-ordered first-match loop can
produce satisfies the shape facts. -/
theorem runMatchers_ok {line : List Char} {ctx : ParseContext} {r : MatchResult}
    (h : runMatchers line ctx = some r) : ResultOK ctx r := by
  rw [runMatchers] at h
  cases h1 : classMatch line ctx with
  | some r1 => rw [h1] at h; injection h with h; subst h; exact classMatch_ok h1
  | none =>
  rw [h1] at h
  cases h2 : moduleMatch line ctx with
  | some r2 => rw [h2] at h; injection h with h; subst h; exact moduleMatch_ok h2
  | none =>
  rw [h2] at h
  cases h3 : methodMatch line ctx with
  | some r3 => rw [h3] at h; injection h with h; subst h; exact methodMatch_ok h3
  | none =>
  rw [h3] at h
  cases h4 : relationMatch line ctx with
  | some r4 => rw [h4] at h; injection h with h; subst h; exact relationMatch_ok h4
  | none =>
  rw [h4] at h
  cases h5 : constantMatch line ctx with
  | some r5 => rw [h5] at h; injection h with h; subst h; exact constantMatch_ok h5
  | none =>
  rw [h5] at h
  cases h6 : localvarMatch line ctx with
  | some r6 => rw [h6] at h; injection h with h; subst h; exact localvarMatch_ok h6
  | none =>
  rw [h6] at h
  exact endMatch_ok h

/-! ### List helpers for the scanner invariant -/

theorem get?_append_l {α : Type} {l l' : List α} {k : Nat} {m : α}
    (h : l.get? k = some m) : (l ++ l').get? k = some m := by
  have hk : k < l.length := by
    rcases List.get?_eq_some.mp h with ⟨hh, _⟩
    exact hh
  rw [List.get?_append hk, h]

theorem mem_set_or_get {α : Type} {l : List α} {a b : α} {n : Nat} (h : a ∈ l) :
    a ∈ l.set n b ∨ l.get? n = some a := by
  induction l generalizing n with
  | nil => simp at h
  | cons x xs ih =>
    cases n with
    | zero =>
      rcases List.mem_cons.mp h with rfl | h
      · right; rfl
      · left; exact List.mem_cons_of_mem _ h
    | succ k =>
      rcases List.mem_cons.mp h with rfl | h
      · left; exact List.mem_cons_self _ _
      · rcases ih h with h2 | h2
        · left; exact List.mem_cons_of_mem _ h2
        · right; exact h2

theorem set_get_mem {α : Type} {l : List α} {m b : α} {n : Nat}
    (h : l.get? n = some m) : b ∈ l.set n b := by
  induction l generalizing n with
  | nil => simp [List.get?] at h
  | cons x xs ih =>
    cases n with
    | zero => exact List.mem_cons_self _ _
    | succ k => exact List.mem_cons_of_mem _ (ih h)

/-! ### Scanner invariant preservation -/

theorem auxInv_mono {path : String} {st : ScanState} {b b' : Nat}
    (h : AuxInv path st b) (hb : b ≤ b') : AuxInv path st b' := by
  obtain ⟨hf, hl, hm, hv⟩ := h
  exact ⟨hf, fun s hs => Nat.lt_of_lt_of_le (hl s hs) hb, hm, hv⟩

/-- The local-variable witness component survives the `EndLine` update of
the closing method. -/
theorem applyPopExit_inv {path : String} {st : ScanState} {bound : Nat}
    (hinv : AuxInv path st bound) :
    AuxInv path (applyPopExit st bound) (bound + 1) ∧
      (applyPopExit st bound).acc = st.acc := by
  obtain ⟨hf, hl, hm, hv⟩ := hinv
  rw [applyPopExit]
  cases hcm0 : st.currentMethod with
  | none =>
    dsimp only
    rw [if_neg (by simp)]
    refine ⟨⟨hf, fun s hs => Nat.lt_succ_of_lt (hl s hs), ?_, hv⟩, rfl⟩
    intro cm h
    obtain ⟨k, m, h1, h2, h3, h4, h5⟩ := hm cm h
    exact ⟨k, m, h1, h2, h3, h4, h5⟩
  | some cm0 =>
    dsimp only
    by_cases heq : (st.nestingDepth == cm0.nestingDepth) = true
    · rw [if_pos heq]
      obtain ⟨k, m, h1, h2, h3, h4, h5⟩ := hm cm0 hcm0
      rw [h1]
      dsimp only
      rw [h2]
      dsimp only
      refine ⟨⟨?_, ?_, ?_, ?_⟩, rfl⟩
      · intro s hs
        rcases List.mem_or_eq_of_mem_set hs with hs | rfl
        · exact hf s hs
        · exact hf m (List.get?_mem h2)
      · intro s hs
        rcases List.mem_or_eq_of_mem_set hs with hs | rfl
        · exact Nat.lt_succ_of_lt (hl s hs)
        · exact Nat.lt_succ_of_lt (hl m (List.get?_mem h2))
      · intro cm h
        exact absurd h (by simp)
      · intro v hvm hvk
        have hvold : v ∈ st.symbols := by
          rcases List.mem_or_eq_of_mem_set hvm with hs | rfl
          · exact hs
          · exfalso
            rcases h3 with h3 | h3 <;> rw [h3] at hvk <;> exact absurd hvk (by simp)
        obtain ⟨m0, hm0, hk0, hfn0, hlt0, hend0⟩ := hv v hvold hvk
        rcases mem_set_or_get (b := { m with endLine := bound }) (n := k) hm0 with hin | hat
        · exact ⟨m0, hin, hk0, hfn0, hlt0, hend0⟩
        · have hm0m : m0 = m := by
            rw [hat] at h2
            injection h2
          subst hm0m
          refine ⟨{ m0 with endLine := bound }, set_get_mem h2, hk0, hfn0, hlt0, ?_⟩
          right
          exact Nat.le_of_lt (hl v hvold)
    · rw [if_neg heq]
      refine ⟨⟨hf, fun s hs => Nat.lt_succ_of_lt (hl s hs), ?_, hv⟩, rfl⟩
      intro cm h
      obtain ⟨k, m, h1, h2, h3, h4, h5⟩ := hm cm h
      exact ⟨k, m, h1, h2, h3, h4, h5⟩

theorem applyPop_inv {path : String} {st : ScanState} {bound : Nat}
    (hinv : AuxInv path st bound) :
    AuxInv path (applyPop st bound) (bound + 1) ∧ (applyPop st bound).acc = st.acc := by
  rw [applyPop]
  by_cases hd : st.nestingDepth > 0
  · rw [if_pos hd]
    exact applyPopExit_inv hinv
  · rw [if_neg hd]
    obtain ⟨hf, hl, hm, hv⟩ := hinv
    exact ⟨⟨hf, fun s hs => Nat.lt_succ_of_lt (hl s hs), hm, hv⟩, rfl⟩

/-- The core invariant is preserved by applying one match result at the
effective line `bound`. -/
theorem applyResult_inv {path : String} {st : ScanState} {bound : Nat} {r : MatchResult}
    {ctx : ParseContext}
    (hinv : AuxInv path st bound) (hok : ResultOK ctx r)
    (hfp : ctx.filePath = path) (hln : ctx.lineNum = bound)
    (hcm : ctx.currentMethod = st.currentMethod) :
    AuxInv path (applyResult st r bound) (bound + 1) ∧
      (applyResult st r bound).acc = st.acc := by
  obtain ⟨hf, hl, hm, hv⟩ := hinv
  obtain ⟨ok1, ok2, ok3, ok4⟩ := hok
  have hf1 : ∀ s ∈ st.symbols ++ r.symbols, s.filePath = path := by
    intro s hs
    rcases List.mem_append.mp hs with h | h
    · exact hf s h
    · rw [(ok1 s h).1, hfp]
  have hl1 : ∀ s ∈ st.symbols ++ r.symbols, s.line < bound + 1 := by
    intro s hs
    rcases List.mem_append.mp hs with h | h
    · exact Nat.lt_succ_of_lt (hl s h)
    · rw [(ok1 s h).2.1, hln]; omega
  have hv1 : ∀ v ∈ st.symbols ++ r.symbols, v.kind = SymbolKind.KindLocalVariable →
      ∃ m ∈ st.symbols ++ r.symbols,
        (m.kind = SymbolKind.KindMethod ∨ m.kind = SymbolKind.KindSingletonMethod) ∧
        m.fullName = v.methodFullName ∧ m.line < v.line ∧
        (m.endLine = 0 ∨ v.line ≤ m.endLine) := by
    intro v hs hk
    rcases List.mem_append.mp hs with h | h
    · obtain ⟨m, hmem, hp1, hp2, hp3, hp4⟩ := hv v h hk
      exact ⟨m, List.mem_append_left _ hmem, hp1, hp2, hp3, hp4⟩
    · obtain ⟨cm, hcm2, hfn⟩ := ok2 v h hk
      rw [hcm] at hcm2
      obtain ⟨k, m, hk2, hget, hkind, hfull, hend⟩ := hm cm hcm2
      refine ⟨m, List.mem_append_left _ (List.get?_mem hget), hkind, ?_, ?_, Or.inl hend⟩
      · rw [hfull, hfn]
      · have hml := hl m (List.get?_mem hget)
        rw [(ok1 v h).2.1, hln]
        exact hml
  have hm1 : ∀ cm, st.currentMethod = some cm →
      ∃ k m, st.methodSymbol = some k ∧ (st.symbols ++ r.symbols).get? k = some m ∧
        (m.kind = SymbolKind.KindMethod ∨ m.kind = SymbolKind.KindSingletonMethod) ∧
        m.fullName = cm.fullName ∧ m.endLine = 0 := by
    intro cm h
    obtain ⟨k, m, h1, h2, h3, h4, h5⟩ := hm cm h
    exact ⟨k, m, h1, get?_append_l h2, h3, h4, h5⟩
  rw [applyResult]
  by_cases hpop : r.popScope = true
  · obtain ⟨hsy, hen, hps⟩ := ok4 hpop
    rw [hpop, hsy, hps, applyEnterMethod, hen]
    dsimp only
    have hrew : ({ st with symbols := st.symbols ++ [] } : ScanState) = st := by
      cases st; simp
    rw [hrew]
    exact applyPop_inv ⟨hf, hl, hm, hv⟩
  · rw [if_neg (by simp [hpop])]
    have push_inv : ∀ (st2 : ScanState),
        st2.symbols = st.symbols ++ r.symbols →
        st2.currentMethod = st.currentMethod →
        st2.methodSymbol = st.methodSymbol →
        st2.acc = st.acc →
        AuxInv path (applyEnterMethod st2 r) (bound + 1) ∧
          (applyEnterMethod st2 r).acc = st.acc := by
      intro st2 hsy2 hcm2 hms2 hacc2
      rw [applyEnterMethod]
      cases hen : r.enterMethod with
      | none =>
        dsimp only
        refine ⟨⟨?_, ?_, ?_, ?_⟩, hacc2⟩
        · rw [hsy2]; exact hf1
        · rw [hsy2]; exact hl1
        · rw [hcm2, hms2, hsy2]; exact hm1
        · rw [hsy2]; exact hv1
      | some em =>
        dsimp only
        obtain ⟨sym, hsy, hkind, hfull, hfmi⟩ := ok3 em hen
        rw [hfmi]
        dsimp only
        refine ⟨⟨?_, ?_, ?_, ?_⟩, hacc2⟩
        · rw [hsy2]; exact hf1
        · rw [hsy2]; exact hl1
        · intro cm h
          injection h with h
          refine ⟨st2.symbols.length - r.symbols.length + 0, sym, rfl, ?_, hkind, ?_, ?_⟩
          · rw [hsy2, hsy]
            have hidx : (st.symbols ++ [sym]).length - [sym].length + 0
                = st.symbols.length := by simp
            rw [hidx]
            exact List.get?_concat_length st.symbols sym
          · rw [hfull, ← h]
          · exact (ok1 sym (by rw [hsy]; exact List.mem_singleton_self sym)).2.2
        · rw [hsy2]; exact hv1
    exact push_inv _ (by by_cases hp : r.pushScope ≠ "" <;> simp [hp])
      (by by_cases hp : r.pushScope ≠ "" <;> simp [hp])
      (by by_cases hp : r.pushScope ≠ "" <;> simp [hp])
      (by by_cases hp : r.pushScope ≠ "" <;> simp [hp])

/-- One matcher-loop run at the effective line `bound` preserves the core
invariant and does not touch the accumulator. -/
theorem processLine_inv {path : String} {st : ScanState} {bound : Nat} {line : List Char}
    (hinv : AuxInv path st bound) :
    AuxInv path (processLine path st bound line) (bound + 1) ∧
      (processLine path st bound line).acc = st.acc := by
  rw [processLine]
  cases hr : runMatchers line
      { filePath := path, currentScope := st.scopeStack, lineNum := bound,
        currentMethod := st.currentMethod } with
  | none => exact ⟨auxInv_mono hinv (Nat.le_succ bound), rfl⟩
  | some r => exact applyResult_inv hinv (runMatchers_ok hr) rfl rfl rfl

/-- An accumulation started by `tryStartMultiline` carries the line number
it was started at. -/
theorem tryStartMultiline_startLine {line : List Char} {n : Nat} {a : Accum}
    (h : tryStartMultiline line n = some a) : a.startLine = n := by
  rw [tryStartMultiline] at h
  cases hr : relationStartsMultiline line with
  | none => rw [hr] at h; exact Option.noConfusion h
  | some oc =>
    obtain ⟨o, c⟩ := oc
    rw [hr] at h
    dsimp only at h
    injection h with h
    subst h
    rfl

theorem scanInv_mono {path : String} {st : ScanState} {b b' : Nat}
    (h : ScanInv path st b) (hb : b ≤ b') : ScanInv path st b' := by
  obtain ⟨ha, hacc⟩ := h
  refine ⟨?_, fun a haeq => Nat.lt_of_lt_of_le (hacc a haeq) hb⟩
  cases hc : st.acc with
  | some a => simp only [nextEff, hc] at ha ⊢; exact ha
  | none => simp only [nextEff, hc] at ha ⊢; exact auxInv_mono ha hb

/-- One iteration of the line loop of `Scanner.Parse` preserves the loop
invariant. -/
theorem scanStep_inv {path : String} {st : ScanState} {idx0 : Nat} {raw : List Char}
    (h : ScanInv path st (idx0 + 1)) :
    ScanInv path (scanStep path st idx0 raw) (idx0 + 2) := by
  obtain ⟨ha, hacc⟩ := h
  rw [scanStep]
  dsimp only
  split
  · exact scanInv_mono ⟨ha, hacc⟩ (by omega)
  · cases hc : st.acc with
    | some a =>
      simp only [nextEff, hc] at ha
      have hstart := hacc a hc
      have hsl : (accAdd a (trimSpace raw)).startLine = a.startLine := rfl
      dsimp only
      split
      · refine ⟨?_, ?_⟩
        · show AuxInv path st (accAdd a (trimSpace raw)).startLine
          rw [hsl]
          exact ha
        · intro a' ha'
          injection ha' with ha'
          subst ha'
          show (accAdd a (trimSpace raw)).startLine < idx0 + 2
          omega
      · obtain ⟨hinv2, hacc2⟩ :=
          @processLine_inv path { st with acc := none }
            (accAdd a (trimSpace raw)).startLine
            (accAdd a (trimSpace raw)).buffer ha
        refine ⟨?_, ?_⟩
        · simp only [nextEff, hacc2]
          exact auxInv_mono hinv2 (by omega)
        · intro a' ha'
          rw [hacc2] at ha'
          exact Option.noConfusion ha'
    | none =>
      simp only [nextEff, hc] at ha
      cases hts : tryStartMultiline (trimSpace raw) (idx0 + 1) with
      | some a =>
        have hstart : a.startLine = idx0 + 1 := tryStartMultiline_startLine hts
        dsimp only
        split
        · refine ⟨?_, ?_⟩
          · show AuxInv path st a.startLine
            rw [hstart]
            exact ha
          · intro a' ha'
            injection ha' with ha'
            subst ha'
            show a.startLine < idx0 + 2
            omega
        · obtain ⟨hinv2, hacc2⟩ :=
            @processLine_inv path { st with acc := none } (idx0 + 1) a.buffer ha
          refine ⟨?_, ?_⟩
          · simp only [nextEff, hacc2]
            exact hinv2
          · intro a' ha'
            rw [hacc2] at ha'
            exact Option.noConfusion ha'
      | none =>
        obtain ⟨hinv2, hacc2⟩ := @processLine_inv path st (idx0 + 1) raw ha
        rw [hc] at hacc2
        refine ⟨?_, ?_⟩
        · simp only [nextEff, hacc2]
          exact hinv2
        · intro a' ha'
          rw [hacc2] at ha'
          exact Option.noConfusion ha'

/-- The line loop of `Scanner.Parse`, started at physical line `n + 1` in a
state satisfying the loop invariant, ends satisfying it past the last
line. -/
theorem foldl_scan_inv {path : String} :
    ∀ (lines : List (List Char)) (n : Nat) (st : ScanState),
      ScanInv path st (n + 1) →
      ScanInv path ((List.enumFrom n lines).foldl
          (fun st p => scanStep path st p.1 p.2) st) (n + lines.length + 1) := by
  intro lines
  induction lines with
  | nil => intro n st h; exact h
  | cons l ls ih =>
    intro n st h
    have h2 : ScanInv path (scanStep path st n l) (n + 2) := scanStep_inv h
    have h3 := ih (n + 1) (scanStep path st n l) h2
    show ScanInv path ((List.enumFrom (n + 1) ls).foldl
        (fun st p => scanStep path st p.1 p.2) (scanStep path st n l))
      (n + (ls.length + 1) + 1)
    have heq : n + (ls.length + 1) + 1 = n + 1 + ls.length + 1 := by omega
    rw [heq]
    exact h3

/-- `Scanner.Parse` establishes the scanner invariant at the end of the
file. -/
theorem parseScan_inv (path : String) (lines : List (List Char)) :
    ScanInv path (parseScan path lines) (lines.length + 1) := by
  have h0 : ScanInv path {} (0 + 1) :=
    ⟨⟨fun s hs => absurd hs (List.not_mem_nil s),
      fun s hs => absurd hs (List.not_mem_nil s),
      fun cm h => Option.noConfusion h,
      fun v hv _ => absurd hv (List.not_mem_nil v)⟩,
     fun a h => Option.noConfusion h⟩
  have h := foldl_scan_inv lines 0 {} h0
  rw [Nat.zero_add] at h
  exact h

/-- Every symbol `Scanner.Parse` emits carries the scanned file path. -/
theorem parse_filePath (path content : String) :
    ∀ s ∈ parse path content, s.filePath = path := by
  intro s hs
  exact (parseScan_inv path (splitOnChar '\n' content.toList)).1.1 s hs

/-- Every local variable `Scanner.Parse` emits has a method witness among
the emitted symbols: same full name, opened strictly before the variable's
line, and either still open (`EndLine` 0) or closed at or after it. -/
theorem parse_localvar (path content : String) :
    ∀ v ∈ parse path content, v.kind = SymbolKind.KindLocalVariable →
      ∃ m ∈ parse path content,
        (m.kind = SymbolKind.KindMethod ∨ m.kind = SymbolKind.KindSingletonMethod) ∧
        m.fullName = v.methodFullName ∧ m.line < v.line ∧
        (m.endLine = 0 ∨ v.line ≤ m.endLine) := by
  intro v hv hk
  exact (parseScan_inv path (splitOnChar '\n' content.toList)).1.2.2.2 v hv hk

/-! ### Association-list lemmas -/

theorem lookupA_insertA {α : Type} (m : List (String × α)) (k k2 : String) (v : α) :
    lookupA (insertA m k v) k2 = if k = k2 then some v else lookupA m k2 := by
  induction m with
  | nil => by_cases h : k = k2 <;> simp [insertA, lookupA, h]
  | cons p rest ih =>
    obtain ⟨kp, vp⟩ := p
    by_cases h1 : kp = k
    · by_cases h2 : k = k2 <;> simp [insertA, lookupA, h1, h2]
    · by_cases h2 : kp = k2
      · have h3 : ¬ k = k2 := fun hh => h1 (h2.trans hh.symm)
        have h4 : ¬ k2 = k := fun hh => h3 hh.symm
        simp [insertA, lookupA, h1, h2, h3, h4]
      · simp [insertA, lookupA, h1, h2, ih]

theorem lookupA_eraseA {α : Type} (m : List (String × α)) (k k2 : String) :
    lookupA (eraseA m k) k2 = if k2 = k then none else lookupA m k2 := by
  induction m with
  | nil => by_cases h : k2 = k <;> simp [eraseA, lookupA, h]
  | cons p rest ih =>
    obtain ⟨kp, vp⟩ := p
    rw [eraseA] at ih ⊢
    rw [List.filter_cons]
    by_cases h1 : kp = k
    · rw [if_neg (by simp [h1]), ih]
      by_cases h3 : k2 = k
      · rw [if_pos h3, if_pos h3]
      · rw [if_neg h3, if_neg h3, lookupA,
          if_neg (fun hh : kp = k2 => h3 (hh ▸ h1))]
    · rw [if_pos (by simp [h1])]
      by_cases h2 : kp = k2
      · rw [lookupA, if_pos h2,
          if_neg (fun hh : k2 = k => h1 (h2.trans hh)), lookupA, if_pos h2]
      · rw [lookupA, if_neg h2, ih]
        by_cases h3 : k2 = k
        · rw [if_pos h3, if_pos h3]
        · rw [if_neg h3, if_neg h3, lookupA, if_neg h2]

theorem lookupA_mem {α : Type} {m : List (String × α)} {k : String} {v : α}
    (h : lookupA m k = some v) : (k, v) ∈ m := by
  induction m with
  | nil => exact Option.noConfusion h
  | cons p rest ih =>
    obtain ⟨kp, vp⟩ := p
    rw [lookupA] at h
    by_cases h1 : kp = k
    · rw [if_pos h1] at h
      injection h with h
      rw [← h1, ← h]
      exact List.mem_cons_self _ _
    · rw [if_neg h1] at h
      exact List.mem_cons_of_mem _ (ih h)

theorem mem_insertA {α : Type} {m : List (String × α)} {k : String} {v : α}
    {pr : String × α} (h : pr ∈ insertA m k v) : pr ∈ m ∨ pr = (k, v) := by
  induction m with
  | nil =>
    rw [insertA] at h
    rcases List.mem_singleton.mp h with rfl
    exact Or.inr rfl
  | cons p rest ih =>
    obtain ⟨kp, vp⟩ := p
    rw [insertA] at h
    by_cases h1 : kp = k
    · rw [if_pos h1] at h
      rcases List.mem_cons.mp h with rfl | hr
      · exact Or.inr (by rw [h1])
      · exact Or.inl (List.mem_cons_of_mem _ hr)
    · rw [if_neg h1] at h
      rcases List.mem_cons.mp h with rfl | hr
      · exact Or.inl (List.mem_cons_self _ _)
      · rcases ih hr with hm | he
        · exact Or.inl (List.mem_cons_of_mem _ hm)
        · exact Or.inr he

/-! ### Structural invariant of the index under the public operations -/

theorem wf_byFile_lookup {st : IndexState} (h : WFIndex st) {p : String}
    {l : List Symbol} (hl : lookupA st.byFile p = some l) :
    ∀ s ∈ l, s.filePath = p :=
  h.1 (p, l) (lookupA_mem hl)

theorem wf_emptyIndex : WFIndex emptyIndex := by
  refine ⟨?_, ?_, ?_⟩
  · intro pr hpr
    exact absurd hpr (List.not_mem_nil pr)
  · intro fn l hl
    exact Option.noConfusion hl
  · intro p l hl
    exact Option.noConfusion hl

/-- One step of the `RemoveFile` fold preserves the loop invariant, moving
the processed symbol out of the pending list. -/
theorem removeSymbolStep_inv {st : IndexState} {p : String} {sym : Symbol}
    {rest : List Symbol}
    {acc : List (String × List Symbol) × List (String × List String)}
    (h : RemInv st p (sym :: rest) acc.1) :
    RemInv st p rest (removeSymbolStep acc p sym).1 := by
  have hsm : (removeSymbolStep acc p sym).1 =
      if ((((lookupA acc.1 sym.fullName).getD []).filter
            fun s => s.filePath ≠ p)).isEmpty then
        eraseA acc.1 sym.fullName
      else insertA acc.1 sym.fullName
        (((lookupA acc.1 sym.fullName).getD []).filter fun s => s.filePath ≠ p) := rfl
  rw [hsm]
  by_cases he : ((((lookupA acc.1 sym.fullName).getD []).filter
      fun s => s.filePath ≠ p)).isEmpty = true
  · rw [if_pos he]
    intro fn l hl s hs
    rw [lookupA_eraseA] at hl
    by_cases hfk : fn = sym.fullName
    · rw [if_pos hfk] at hl
      exact Option.noConfusion hl
    · rw [if_neg hfk] at hl
      obtain ⟨h1, h2, h3⟩ := h fn l hl s hs
      refine ⟨h1, h2, fun hp => ?_⟩
      obtain ⟨sym2, hmem, hfn2⟩ := h3 hp
      rcases List.mem_cons.mp hmem with rfl | hmem2
      · exact absurd hfn2.symm hfk
      · exact ⟨sym2, hmem2, hfn2⟩
  · rw [if_neg he]
    intro fn l hl s hs
    rw [lookupA_insertA] at hl
    by_cases hfk : sym.fullName = fn
    · rw [if_pos hfk] at hl
      injection hl with hl
      subst hl
      obtain ⟨hsin, hsp⟩ := List.mem_filter.mp hs
      have hsp' : s.filePath ≠ p := by simpa using hsp
      cases hex : lookupA acc.1 sym.fullName with
      | none =>
        rw [hex] at hsin
        exact absurd hsin (List.not_mem_nil s)
      | some bucket =>
        rw [hex] at hsin
        obtain ⟨h1, h2, _⟩ := h sym.fullName bucket hex s hsin
        exact ⟨hfk ▸ h1, h2, fun hp => absurd hp hsp'⟩
    · rw [if_neg hfk] at hl
      obtain ⟨h1, h2, h3⟩ := h fn l hl s hs
      refine ⟨h1, h2, fun hp => ?_⟩
      obtain ⟨sym2, hmem, hfn2⟩ := h3 hp
      rcases List.mem_cons.mp hmem with rfl | hmem2
      · exact absurd hfn2 hfk
      · exact ⟨sym2, hmem2, hfn2⟩

theorem removeFold_inv (st : IndexState) (p : String) :
    ∀ (syms : List Symbol)
      (acc : List (String × List Symbol) × List (String × List String)),
      RemInv st p syms acc.1 →
      RemInv st p []
        ((syms.foldl (fun acc sym => removeSymbolStep acc p sym) acc).1) := by
  intro syms
  induction syms with
  | nil => intro acc h; exact h
  | cons sym rest ih =>
    intro acc h
    exact ih (removeSymbolStep acc p sym) (removeSymbolStep_inv h)

/-- After `RemoveFile p`, every symbol in any primary-map bucket has its key
as full name, does not belong to the removed file, and still lies in its
(unchanged) per-file bucket. -/
theorem removeFile_symbols_ok {st : IndexState} (hwf : WFIndex st) (p : String) :
    ∀ fn l, lookupA (removeFile st p).symbols fn = some l → ∀ s ∈ l,
      s.fullName = fn ∧ s.filePath ≠ p ∧
      s ∈ (lookupA (removeFile st p).byFile s.filePath).getD [] := by
  obtain ⟨hwf1, hwf2, hwf3⟩ := hwf
  have hinit : RemInv st p ((lookupA st.byFile p).getD []) st.symbols := by
    intro fn l hl s hs
    obtain ⟨h1, h2⟩ := hwf2 fn l hl s hs
    refine ⟨h1, h2, fun hp => ⟨s, ?_, h1⟩⟩
    rw [← hp]
    exact h2
  have hfold := removeFold_inv st p ((lookupA st.byFile p).getD [])
      (st.symbols, st.shortNames) hinit
  intro fn l hl s hs
  have hsymeq : (removeFile st p).symbols =
      (((lookupA st.byFile p).getD []).foldl
        (fun acc sym => removeSymbolStep acc p sym) (st.symbols, st.shortNames)).1 := rfl
  rw [hsymeq] at hl
  obtain ⟨h1, h2, h3⟩ := hfold fn l hl s hs
  have hnp : s.filePath ≠ p := fun hp => by
    obtain ⟨sym2, hmem, _⟩ := h3 hp
    exact absurd hmem (List.not_mem_nil sym2)
  refine ⟨h1, hnp, ?_⟩
  have hbf : (removeFile st p).byFile = eraseA st.byFile p := rfl
  rw [hbf, lookupA_eraseA, if_neg hnp]
  exact h2

theorem removeFile_fresh (st : IndexState) (p : String) :
    lookupA (removeFile st p).byFile p = none := by
  have hbf : (removeFile st p).byFile = eraseA st.byFile p := rfl
  rw [hbf, lookupA_eraseA, if_pos rfl]

theorem wf_removeFile {st : IndexState} (hwf : WFIndex st) (p : String) :
    WFIndex (removeFile st p) := by
  refine ⟨?_, ?_, ?_⟩
  · intro pr hpr
    have hbf : (removeFile st p).byFile = eraseA st.byFile p := rfl
    rw [hbf, eraseA] at hpr
    exact hwf.1 pr (List.mem_of_mem_filter hpr)
  · intro fn l hl s hs
    obtain ⟨h1, _, h3⟩ := removeFile_symbols_ok hwf p fn l hl s hs
    exact ⟨h1, h3⟩
  · intro q l hl
    have hbf : (removeFile st p).byFile = eraseA st.byFile p := rfl
    rw [hbf, lookupA_eraseA] at hl
    by_cases hq : q = p
    · rw [if_pos hq] at hl
      exact Option.noConfusion hl
    · rw [if_neg hq] at hl
      exact hwf.2.2 q l hl

/-- One step of the `AddFile` fold preserves the loop invariant (the
short-name component is untouched by the invariant). -/
theorem addStep_inv {st : IndexState} {syms : List Symbol} {sym : Symbol}
    (hsym : sym ∈ syms) {acc1 : List (String × List Symbol)}
    (h : AddInv st syms acc1) :
    AddInv st syms (insertA acc1 sym.fullName
      (((lookupA acc1 sym.fullName).getD []) ++ [sym])) := by
  intro fn l hl s hs
  rw [lookupA_insertA] at hl
  by_cases hfk : sym.fullName = fn
  · rw [if_pos hfk] at hl
    injection hl with hl
    subst hl
    rcases List.mem_append.mp hs with hin | hone
    · cases hex : lookupA acc1 sym.fullName with
      | none =>
        rw [hex] at hin
        exact absurd hin (List.not_mem_nil s)
      | some bucket =>
        rw [hex] at hin
        obtain ⟨h1, h2⟩ := h sym.fullName bucket hex s hin
        exact ⟨hfk ▸ h1, h2⟩
    · rcases List.mem_singleton.mp hone with rfl
      exact ⟨hfk, Or.inr hsym⟩
  · rw [if_neg hfk] at hl
    exact h fn l hl s hs

theorem addFold_inv (st : IndexState) (syms : List Symbol)
    (g : (List (String × List Symbol) × List (String × List String)) → Symbol →
         List (String × List String)) :
    ∀ (l : List Symbol), (∀ x ∈ l, x ∈ syms) →
    ∀ (acc : List (String × List Symbol) × List (String × List String)),
      AddInv st syms acc.1 →
      AddInv st syms ((l.foldl (fun acc sym =>
        (insertA acc.1 sym.fullName (((lookupA acc.1 sym.fullName).getD []) ++ [sym]),
         g acc sym)) acc).1) := by
  intro l
  induction l with
  | nil => intro _ acc h; exact h
  | cons sym rest ih =>
    intro hmem acc h
    exact ih (fun x hx => hmem x (List.mem_cons_of_mem _ hx)) _
      (addStep_inv (hmem sym (List.mem_cons_self _ _)) h)

/-- After `AddFile` on a path not yet indexed, every symbol in any
primary-map bucket has its key as full name and lies in its per-file
bucket. -/
theorem addFile_symbols_ok {st : IndexState} (hwf : WFIndex st) {path : String}
    (content : String) (hfresh : lookupA st.byFile path = none) :
    ∀ fn l, lookupA (addFile st path content).symbols fn = some l → ∀ s ∈ l,
      s.fullName = fn ∧
      s ∈ (lookupA (addFile st path content).byFile s.filePath).getD [] := by
  obtain ⟨hwf1, hwf2, hwf3⟩ := hwf
  have hinit : AddInv st (parse path content) st.symbols := by
    intro fn l hl s hs
    obtain ⟨h1, h2⟩ := hwf2 fn l hl s hs
    exact ⟨h1, Or.inl h2⟩
  have hfold := addFold_inv st (parse path content)
    (fun acc sym =>
      if ((lookupA acc.2 sym.name).getD []).contains sym.fullName then acc.2
      else insertA acc.2 sym.name
        (((lookupA acc.2 sym.name).getD []) ++ [sym.fullName]))
    (parse path content) (fun x hx => hx) (st.symbols, st.shortNames) hinit
  intro fn l hl s hs
  have hsymeq : (addFile st path content).symbols =
      ((parse path content).foldl (fun acc sym =>
        (insertA acc.1 sym.fullName (((lookupA acc.1 sym.fullName).getD []) ++ [sym]),
         if ((lookupA acc.2 sym.name).getD []).contains sym.fullName then acc.2
         else insertA acc.2 sym.name
           (((lookupA acc.2 sym.name).getD []) ++ [sym.fullName])))
        (st.symbols, st.shortNames)).1 := rfl
  rw [hsymeq] at hl
  obtain ⟨h1, h2⟩ := hfold fn l hl s hs
  refine ⟨h1, ?_⟩
  have hbf : (addFile st path content).byFile
      = insertA st.byFile path (parse path content) := rfl
  rw [hbf, lookupA_insertA]
  rcases h2 with hold | hnew
  · by_cases hsp : path = s.filePath
    · rw [← hsp, hfresh] at hold
      exact absurd hold (List.not_mem_nil s)
    · rw [if_neg hsp]
      exact hold
  · have hsp : s.filePath = path := parse_filePath path content s hnew
    rw [hsp, if_pos rfl]
    exact hnew

theorem wf_addFile {st : IndexState} (hwf : WFIndex st) {path : String}
    (content : String) (hfresh : lookupA st.byFile path = none) :
    WFIndex (addFile st path content) := by
  refine ⟨?_, addFile_symbols_ok hwf content hfresh, ?_⟩
  · intro pr hpr
    have hbf : (addFile st path content).byFile
        = insertA st.byFile path (parse path content) := rfl
    rw [hbf] at hpr
    rcases mem_insertA hpr with hold | rfl
    · exact hwf.1 pr hold
    · intro s hs
      exact parse_filePath path content s hs
  · intro q l hl
    have hbf : (addFile st path content).byFile
        = insertA st.byFile path (parse path content) := rfl
    rw [hbf, lookupA_insertA] at hl
    by_cases hq : path = q
    · rw [if_pos hq] at hl
      injection hl with hl
      exact ⟨content, by rw [← hl, ← hq]⟩
    · rw [if_neg hq] at hl
      exact hwf.2.2 q l hl

/-- Every state reachable through the public operations satisfies the
structural invariant. -/
theorem wf_reach {st : IndexState} (h : Reach st) : WFIndex st := by
  induction h with
  | init => exact wf_emptyIndex
  | add path content _ hfresh ih => exact wf_addFile ih content hfresh
  | remove path _ ih => exact wf_removeFile ih path
  | update path content _ ih =>
    exact wf_addFile (wf_removeFile ih path) content (removeFile_fresh _ path)

/-! ### Every query result comes from the index's maps -/

/-- Every symbol of the non-redirect resolution lies in a primary-map
bucket. -/
theorem noRedirectResolve_sub {st : IndexState} {name : String} {s : Symbol}
    (h : s ∈ noRedirectResolve st name) :
    ∃ fn l, lookupA st.symbols fn = some l ∧ s ∈ l := by
  rw [noRedirectResolve] at h
  cases h1 : lookupA st.symbols name with
  | some syms =>
    rw [h1] at h
    exact ⟨name, syms, h1, h⟩
  | none =>
    rw [h1] at h
    cases h2 : lookupA st.shortNames name with
    | none =>
      rw [h2] at h
      exact absurd h (List.not_mem_nil s)
    | some fullNames =>
      rw [h2] at h
      dsimp only at h
      have hQ := foldl_append_ok
        (fun s => ∃ fn l, lookupA st.symbols fn = some l ∧ s ∈ l)
        (fun fn => (lookupA st.symbols fn).getD []) fullNames []
        (fun r hr => absurd hr (List.not_mem_nil r))
        (fun fn _ r hr => by
          dsimp only at hr
          cases h3 : lookupA st.symbols fn with
          | none =>
            rw [h3] at hr
            exact absurd hr (List.not_mem_nil r)
          | some bucket =>
            rw [h3] at hr
            exact ⟨fn, bucket, h3, hr⟩)
      split at h
      · exact hQ s h
      · exact absurd h (List.not_mem_nil s)

/-- Every symbol a completed `findDefinitionsLocked` run returns lies in a
primary-map bucket of the queried state. -/
theorem findDefFuel_sub : ∀ {fuel : Nat} {st : IndexState} {name : String}
    {r : List Symbol}, findDefFuel fuel st name = some r → ∀ s ∈ r,
      ∃ fn l, lookupA st.symbols fn = some l ∧ s ∈ l := by
  intro fuel
  induction fuel with
  | zero =>
    intro st name r h
    exact absurd h (by rw [findDefFuel]; exact Option.noConfusion)
  | succ k ih =>
    intro st name r h s hs
    rw [findDefFuel] at h
    cases h1 : findRedirect st name with
    | some target =>
      rw [h1] at h
      exact ih h s hs
    | none =>
      rw [h1] at h
      injection h with h
      subst h
      exact noRedirectResolve_sub hs

/-- Lifting of `findDefFuel_sub` through the same-file reordering of
`FindDefinitionsInFile`. -/
theorem findDefinitionsInFile_sub {fuel : Nat} {st : IndexState} {name path : String}
    {r : List Symbol} (h : findDefinitionsInFile fuel st name path = some r) :
    ∀ s ∈ r, ∃ fn l, lookupA st.symbols fn = some l ∧ s ∈ l := by
  rw [findDefinitionsInFile] at h
  cases h1 : findDefFuel fuel st name with
  | none =>
    rw [h1] at h
    exact Option.noConfusion h
  | some all =>
    rw [h1] at h
    dsimp only at h
    intro s hs
    have hsall : s ∈ all := by
      split at h
      · injection h with h
        subst h
        exact absurd hs (List.not_mem_nil s)
      · injection h with h
        subst h
        rcases List.mem_append.mp hs with h2 | h2
        · exact List.mem_of_mem_filter h2
        · exact List.mem_of_mem_filter h2
    exact findDefFuel_sub h1 s hsall

/-- Lifting through the scope-prefix candidate loop of
`FindDefinitionsInContext`. -/
theorem ctxScopeLoop_sub {fuel : Nat} {st : IndexState} {name : String}
    {scope : List String} : ∀ {i : Nat} {r : List Symbol},
    ctxScopeLoop fuel st name scope i = LoopOut.found r →
      ∀ s ∈ r, ∃ fn l, lookupA st.symbols fn = some l ∧ s ∈ l := by
  intro i
  induction i with
  | zero =>
    intro r h
    rw [ctxScopeLoop] at h
    exact absurd h (by simp)
  | succ k ih =>
    intro r h s hs
    rw [ctxScopeLoop] at h
    cases h1 : findDefFuel fuel st
        (String.intercalate "::" (scope.take (k + 1)) ++ "::" ++ name) with
    | none =>
      rw [h1] at h
      exact absurd h (by simp)
    | some results =>
      rw [h1] at h
      dsimp only at h
      split at h
      · injection h with h
        subst h
        exact findDefFuel_sub h1 s hs
      · exact ih h s hs

/-- Every symbol `FindDefinitionsInContext` returns lies in a primary-map
bucket of the queried state. -/
theorem findDefinitionsInContext_sub {fuel : Nat} {st : IndexState}
    {name path : String} {line : Nat} {scopeAt : Option (List String)}
    {r : List Symbol}
    (h : findDefinitionsInContext fuel st name path line scopeAt = some r) :
    ∀ s ∈ r, ∃ fn l, lookupA st.symbols fn = some l ∧ s ∈ l := by
  unfold findDefinitionsInContext at h
  split at h
  · exact findDefFuel_sub h
  · split at h
    · dsimp only at h
      cases hA : (match scopeAt with
          | none => LoopOut.notFound
          | some scope => ctxScopeLoop fuel st name scope scope.length) with
      | diverge =>
        rw [hA] at h
        exact Option.noConfusion h
      | found r2 =>
        rw [hA] at h
        injection h with h
        subst h
        cases hS : scopeAt with
        | none =>
          rw [hS] at hA
          exact absurd hA (by simp)
        | some scope =>
          rw [hS] at hA
          exact ctxScopeLoop_sub hA
      | notFound =>
        rw [hA] at h
        dsimp only at h
        cases h1 : findDefFuel fuel st name with
        | none =>
          rw [h1] at h
          exact Option.noConfusion h
        | some results =>
          rw [h1] at h
          dsimp only at h
          split at h
          · injection h with h
            subst h
            exact findDefFuel_sub h1
          · exact findDefinitionsInFile_sub h
    · exact findDefinitionsInFile_sub h

/-- A local variable `FindLocalVariable` returns lies in the per-file bucket
of the queried path. -/
theorem findLocalVariable_sub {st : IndexState} {name path : String}
    {cursor : Nat} {s : Symbol}
    (h : findLocalVariable st name path cursor = some s) :
    ∃ l, lookupA st.byFile path = some l ∧ s ∈ l := by
  rw [findLocalVariable] at h
  cases h1 : lookupA st.byFile path with
  | none =>
    rw [h1] at h
    exact Option.noConfusion h
  | some syms =>
    rw [h1] at h
    dsimp only at h
    refine ⟨syms, rfl, ?_⟩
    split at h
    · exact Option.noConfusion h
    · exact List.mem_of_find?_eq_some h

/-- A symbol `FindTargetingSymbols` returns lies in some per-file bucket. -/
theorem findTargetingSymbols_sub {st : IndexState} {tn : String} {s : Symbol}
    (h : s ∈ findTargetingSymbols st tn) : ∃ pr ∈ st.byFile, s ∈ pr.2 := by
  rw [findTargetingSymbols] at h
  exact foldl_append_ok (fun s => ∃ pr ∈ st.byFile, s ∈ pr.2)
    (fun pr => pr.2.filter fun s2 => s2.targetName = tn) st.byFile []
    (fun r hr => absurd hr (List.not_mem_nil r))
    (fun pr hpr r hr => ⟨pr, hpr, List.mem_of_mem_filter hr⟩) s h

/-! ### C6 and C7 -/

/-- C6 (counterexample): `AddFile` on an already-indexed path followed by
`RemoveFile` leaves the first content's class in the primary map —
`FindDefinitions("Foo")` on `dblState` (add `p.rb` as `class Foo`, re-add
`p.rb` as `class Bar`, remove `p.rb`) returns a Symbol whose file_path is
the removed path `p.rb`, although the per-file map no longer lists the
path. -/
theorem C6_counterexample :
    (findDefFuel 1 dblState "Foo").map (fun l => l.map fun s => (s.fullName, s.filePath))
        = some [("Foo", "p.rb")] ∧
    lookupA dblState.byFile "p.rb" = none := by
  constructor <;> decide

/-- C6 (amended): under the remove-before-re-add discipline — `AddFile` is
applied only to paths not currently indexed, re-indexing goes through
`UpdateFile` — after `RemoveFile p` no query returns a Symbol of file `p`:
every result of `FindDefinitions`, `FindDefinitionsInFile`,
`FindDefinitionsInContext`, `FindLocalVariable`, `FindTargetingSymbols` and
`SymbolsInFile` on the state `removeFile st p` has `file_path ≠ p`. -/
theorem C6_remove_file_purges (st : IndexState) (h : Reach st) (p : String)
    (fuel : Nat) (name path : String) (line cursor : Nat)
    (scopeAt : Option (List String)) :
    (∀ r, findDefFuel fuel (removeFile st p) name = some r →
       ∀ s ∈ r, s.filePath ≠ p) ∧
    (∀ r, findDefinitionsInFile fuel (removeFile st p) name path = some r →
       ∀ s ∈ r, s.filePath ≠ p) ∧
    (∀ r, findDefinitionsInContext fuel (removeFile st p) name path line scopeAt
        = some r → ∀ s ∈ r, s.filePath ≠ p) ∧
    (∀ s, findLocalVariable (removeFile st p) name path cursor = some s →
       s.filePath ≠ p) ∧
    (∀ s ∈ findTargetingSymbols (removeFile st p) name, s.filePath ≠ p) ∧
    (∀ s ∈ symbolsInFile (removeFile st p) path, s.filePath ≠ p) := by
  have hwf := wf_reach h
  have hprim : ∀ fn l, lookupA (removeFile st p).symbols fn = some l →
      ∀ s ∈ l, s.filePath ≠ p :=
    fun fn l hl s hs => (removeFile_symbols_ok hwf p fn l hl s hs).2.1
  have hwf' := wf_removeFile hwf p
  have hfresh := removeFile_fresh st p
  refine ⟨?_, ?_, ?_, ?_, ?_, ?_⟩
  · intro r hr s hs
    obtain ⟨fn, l, hl, hsl⟩ := findDefFuel_sub hr s hs
    exact hprim fn l hl s hsl
  · intro r hr s hs
    obtain ⟨fn, l, hl, hsl⟩ := findDefinitionsInFile_sub hr s hs
    exact hprim fn l hl s hsl
  · intro r hr s hs
    obtain ⟨fn, l, hl, hsl⟩ := findDefinitionsInContext_sub hr s hs
    exact hprim fn l hl s hsl
  · intro s hs hsp
    obtain ⟨l, hl, hsl⟩ := findLocalVariable_sub hs
    have hfp : s.filePath = path := wf_byFile_lookup hwf' hl s hsl
    rw [hsp] at hfp
    rw [← hfp, hfresh] at hl
    exact Option.noConfusion hl
  · intro s hs hsp
    obtain ⟨pr, hpr, hsl⟩ := findTargetingSymbols_sub hs
    have hfp : s.filePath = pr.1 := hwf'.1 pr hpr s hsl
    have hbf : (removeFile st p).byFile = eraseA st.byFile p := rfl
    rw [hbf, eraseA] at hpr
    have hkey := (List.mem_filter.mp hpr).2
    rw [hsp] at hfp
    exact absurd hfp.symm (by simpa using hkey)
  · intro s hs hsp
    rw [symbolsInFile] at hs
    cases hl : lookupA (removeFile st p).byFile path with
    | none =>
      rw [hl] at hs
      exact absurd hs (List.not_mem_nil s)
    | some l =>
      rw [hl] at hs
      have hfp : s.filePath = path := wf_byFile_lookup hwf' hl s hs
      rw [hsp] at hfp
      rw [← hfp, hfresh] at hl
      exact Option.noConfusion hl

theorem C6_remove_file_purges_witness :
    (∀ r, findDefFuel 1 (removeFile wState "w.rb") "K" = some r →
       ∀ s ∈ r, s.filePath ≠ "w.rb") ∧
    (∀ r, findDefinitionsInFile 1 (removeFile wState "w.rb") "K" "o.rb" = some r →
       ∀ s ∈ r, s.filePath ≠ "w.rb") ∧
    (∀ r, findDefinitionsInContext 1 (removeFile wState "w.rb") "K" "o.rb" 1 none
        = some r → ∀ s ∈ r, s.filePath ≠ "w.rb") ∧
    (∀ s, findLocalVariable (removeFile wState "w.rb") "K" "o.rb" 1 = some s →
       s.filePath ≠ "w.rb") ∧
    (∀ s ∈ findTargetingSymbols (removeFile wState "w.rb") "K", s.filePath ≠ "w.rb") ∧
    (∀ s ∈ symbolsInFile (removeFile wState "w.rb") "o.rb", s.filePath ≠ "w.rb") :=
  C6_remove_file_purges wState (Reach.add "w.rb" wContent Reach.init rfl)
    "w.rb" 1 "K" "o.rb" 1 1 none

/-- C7 (counterexample): for a file whose method lacks its closing `end`
(`noEndContent`: `class K` / `def run` / `x = 1`), the stored local variable
`x` has no stored Symbol `m` of method kind with
`m.line < x.line ≤ m.end_line` — the unclosed method's `end_line` stays 0,
so the claimed invariant fails on the reachable state `noEndState`. -/
theorem C7_counterexample :
    noEndX.kind = SymbolKind.KindLocalVariable ∧
    noEndX ∈ symbolsInFile noEndState "m.rb" ∧
    ¬ ∃ m ∈ symbolsInFile noEndState "m.rb",
        (m.kind = SymbolKind.KindMethod ∨ m.kind = SymbolKind.KindSingletonMethod) ∧
        m.fullName = noEndX.methodFullName ∧ m.line < noEndX.line ∧
        noEndX.line ≤ m.endLine := by
  refine ⟨by decide, by decide, ?_⟩
  decide

/-- C7 (amended): in every reachable index state, every stored LocalVariable
`v` of any per-file bucket has a Method/SingletonMethod witness `m` in the
same bucket (hence the same file) with `v.method_full_name = m.full_name`,
`m.line < v.line`, and either `m.end_line = 0` (the method is not closed by
an `end`) or `v.line ≤ m.end_line`. -/
theorem C7_localvar_method_witness (st : IndexState) (h : Reach st) (p : String)
    (l : List Symbol) (hl : lookupA st.byFile p = some l) :
    ∀ v ∈ l, v.kind = SymbolKind.KindLocalVariable →
      ∃ m ∈ l,
        (m.kind = SymbolKind.KindMethod ∨ m.kind = SymbolKind.KindSingletonMethod) ∧
        m.fullName = v.methodFullName ∧ m.filePath = v.filePath ∧
        m.line < v.line ∧ (m.endLine = 0 ∨ v.line ≤ m.endLine) := by
  have hwf := wf_reach h
  obtain ⟨c, hc⟩ := hwf.2.2 p l hl
  subst hc
  intro v hv hk
  obtain ⟨m, hm, hkind, hfn, hlt, hend⟩ := parse_localvar p c v hv hk
  refine ⟨m, hm, hkind, hfn, ?_, hlt, hend⟩
  rw [parse_filePath p c m hm, parse_filePath p c v hv]

theorem C7_localvar_method_witness_witness :
    lookupA wState.byFile "w.rb" = some (symbolsInFile wState "w.rb") ∧
    (∀ v ∈ symbolsInFile wState "w.rb", v.kind = SymbolKind.KindLocalVariable →
      ∃ m ∈ symbolsInFile wState "w.rb",
        (m.kind = SymbolKind.KindMethod ∨ m.kind = SymbolKind.KindSingletonMethod) ∧
        m.fullName = v.methodFullName ∧ m.filePath = v.filePath ∧
        m.line < v.line ∧ (m.endLine = 0 ∨ v.line ≤ m.endLine)) :=
  ⟨by decide,
   C7_localvar_method_witness wState (Reach.add "w.rb" wContent Reach.init rfl)
     "w.rb" (symbolsInFile wState "w.rb") (by decide)⟩

end GoRuby
